import Mathlib

/-!
Shallow embedding of the hl-paper-mode matching and risk engine
(src/hl_paper: models.py, math_core.py, execution.py, engine.py,
persistence.py) over exact rational arithmetic, together with proofs
about the claims of the specification.

Python dicts are embedded as insertion-ordered association lists with
unique keys: lookup returns the first binding, insertion replaces the
first binding in place or appends, deletion removes the first binding.
-/

namespace HlPaper

/-! ## Data model (models.py) -/

inductive Side where
  | BUY
  | SELL
deriving DecidableEq, Repr

inductive OrderType where
  | MARKET
  | LIMIT
deriving DecidableEq, Repr

inductive SizeUnit where
  | USD
  | BASE
deriving DecidableEq, Repr

structure OrderIntent where
  symbol : String
  side : Side
  order_type : OrderType
  size_value : ℚ
  size_unit : SizeUnit
  leverage : ℤ
  limit_price : ℚ
  reduce_only : Bool
  client_id : String
  timestamp : ℤ
deriving DecidableEq, Repr

structure Position where
  symbol : String
  side : Side
  size : ℚ
  entry_price : ℚ
  leverage : ℤ
  mmr : ℚ
deriving DecidableEq, Repr

/-- Modelled from the spec: the `Fill` record is declared in the
repository's `models.py` but that declaration is absent from the copy of
the source (execution.py, persistence.py and the tests import it).
Fields follow spec section 3: symbol, side, size, price, fee, optional
order_id. -/
structure Fill where
  symbol : String
  side : Side
  size : ℚ
  price : ℚ
  fee : ℚ
  order_id : Option String := none
deriving DecidableEq, Repr

/-- Modelled from the spec: the `OpenOrder` record is declared in the
repository's `models.py` but that declaration is absent from the copy of
the source (engine.py constructs it with exactly these fields).
Fields follow spec section 3 and the construction in
`Engine._handle_limit`. -/
structure OpenOrder where
  order_id : String
  symbol : String
  side : Side
  order_type : OrderType
  size : ℚ
  limit_price : ℚ
  leverage : ℤ
  reduce_only : Bool
  client_id : String
  timestamp : ℤ
deriving DecidableEq, Repr

/-- The single writable aggregate (models.py `AccountState`).
The `open_orders` mapping is modelled from the spec: engine.py and the
tests read and write `state.open_orders`, but the field's declaration is
absent from the copy of `models.py` in the source. -/
structure AccountState where
  balance : ℚ
  positions : List (String × Position)
  open_orders : List (String × OpenOrder)
deriving DecidableEq, Repr

/-! ## Association-list maps with Python dict semantics -/

/-- First-match lookup, `d.get(k)`. -/
def lookupA {α : Type} : List (String × α) → String → Option α
  | [], _ => none
  | (k, v) :: t, key => if k = key then some v else lookupA t key

/-- `d[k] = v`: replace the first binding in place, else append. -/
def insertA {α : Type} : List (String × α) → String → α → List (String × α)
  | [], key, v => [(key, v)]
  | (k, w) :: t, key, v =>
    if k = key then (key, v) :: t else (k, w) :: insertA t key v

/-- `del d[k]`: remove the first binding. -/
def eraseA {α : Type} : List (String × α) → String → List (String × α)
  | [], _ => []
  | (k, w) :: t, key => if k = key then t else (k, w) :: eraseA t key

/-- The keys of the map, in insertion order. -/
def keysA {α : Type} (l : List (String × α)) : List String :=
  l.map Prod.fst

/-! ## Configuration (config.py) -/

/-- Modelled from the spec: `hl_paper/config.py` is imported by
models.py, execution.py and engine.py but is absent from the copy of the
source; the value is the spec section 6 default `TICK_SIZE = 0.1`. -/
def TICK_SIZE : ℚ := 1 / 10

/-- Modelled from the spec: `hl_paper/config.py` is absent from the copy
of the source; the value is the spec section 6 default
`TAKER_FEE_RATE = 0.00045`. -/
def TAKER_FEE_RATE : ℚ := 45 / 100000

/-- Modelled from the spec: `hl_paper/config.py` is absent from the copy
of the source; the value is the spec section 6 default
`STARTING_BALANCE = 10_000.0`. -/
def STARTING_BALANCE : ℚ := 10000

/-! ## Numerics (math_core.py) -/

/-- `1 if side == Side.BUY else -1`. -/
def sideSign : Side → ℤ
  | Side.BUY => 1
  | Side.SELL => -1

def calc_upnl (side : Side) (size mark_price entry_price : ℚ) : ℚ :=
  (sideSign side : ℚ) * size * (mark_price - entry_price)

def calc_maintenance_margin (size price : ℚ) (max_leverage : ℤ) : ℚ :=
  size * price * (1 / (2 * (max_leverage : ℚ)))

def is_liquidatable (equity total_mm : ℚ) (has_positions : Bool) : Bool :=
  if ¬ has_positions then false else decide (equity < total_mm)

def calc_slippage (notional : ℚ) : ℚ :=
  notional / 100000 * (1 / 10000)

def apply_slippage (price : ℚ) (side : Side) (slippage : ℚ) : ℚ :=
  if side = Side.BUY then price * (1 + slippage) else price * (1 - slippage)

def calc_rpnl (side : Side) (entry_price exit_price closed_size : ℚ) : ℚ :=
  (sideSign side : ℚ) * (exit_price - entry_price) * closed_size

def convert_size (size_value : ℚ) (size_unit : SizeUnit) (exec_price : ℚ) : ℚ :=
  if size_unit = SizeUnit.USD then size_value / exec_price else size_value

def calc_exec_price (mid_price : ℚ) (side : Side) (size_value : ℚ) (size_unit : SizeUnit) : ℚ :=
  let base_size := convert_size size_value size_unit mid_price
  let mid_notional := base_size * mid_price
  let slippage := calc_slippage mid_notional
  apply_slippage mid_price side slippage

def calc_fee (notional fee_rate : ℚ) : ℚ :=
  notional * fee_rate

/-- Python 3 `round(q)`: round half to even, translated to exact
rationals via the floor and the fractional part. -/
def pyRound (q : ℚ) : ℤ :=
  let f := ⌊q⌋
  let r := q - (f : ℚ)
  if r < 1 / 2 then f
  else if 1 / 2 < r then f + 1
  else if f % 2 = 0 then f else f + 1

/-- Python `round(q, 10)`: round to ten decimal places, half to even. -/
def pyRound10 (q : ℚ) : ℚ :=
  (pyRound (q * 10 ^ 10) : ℚ) / 10 ^ 10

def round_to_tick (price tick : ℚ) : ℚ :=
  if tick ≤ 0 then price
  else pyRound10 ((pyRound (price / tick) : ℚ) * tick)

def round_to_step (size step : ℚ) : ℚ :=
  if step ≤ 0 then size
  else pyRound10 ((pyRound (size / step) : ℚ) * step)

/-! ## Execution (execution.py) -/

def calc_spread (mid_price tick : ℚ) : ℚ × ℚ :=
  (mid_price - tick / 2, mid_price + tick / 2)

def execute_market_order (symbol : String) (side : Side) (size_value : ℚ)
    (size_unit : SizeUnit) (mid_price : ℚ) (fee_rate : ℚ := TAKER_FEE_RATE) : Fill :=
  let exec_price := calc_exec_price mid_price side size_value size_unit
  let base_size := convert_size size_value size_unit exec_price
  let notional := base_size * exec_price
  let fee := calc_fee notional fee_rate
  { symbol := symbol, side := side, size := base_size, price := exec_price, fee := fee }

def check_limit_fill (order : OpenOrder) (mid_price : ℚ)
    (tick : ℚ := TICK_SIZE) (fee_rate : ℚ := TAKER_FEE_RATE) : Option Fill :=
  let s := calc_spread mid_price tick
  if (order.side = Side.BUY ∧ s.2 ≤ order.limit_price)
      ∨ (order.side = Side.SELL ∧ s.1 ≥ order.limit_price) then
    let notional := order.size * order.limit_price
    let fee := calc_fee notional fee_rate
    some { symbol := order.symbol, side := order.side, size := order.size,
           price := order.limit_price, fee := fee, order_id := some order.order_id }
  else
    none

/-- `apply_fill_to_position` from execution.py.  The source mutates only
`state.balance` and `state.positions`, so those two fields are threaded
explicitly; `ValueError` becomes `Except.error`. -/
def applyFillCore (balance : ℚ) (positions : List (String × Position))
    (fill : Fill) (leverage : ℤ) : Except String (ℚ × List (String × Position)) :=
  match lookupA positions fill.symbol with
  | none =>
    let mmr := 1 / (2 * (leverage : ℚ))
    Except.ok (balance - fill.fee,
      insertA positions fill.symbol
        { symbol := fill.symbol, side := fill.side, size := fill.size,
          entry_price := fill.price, leverage := leverage, mmr := mmr })
  | some pos =>
    if pos.side = fill.side then
      if leverage ≠ pos.leverage then
        Except.error ("Leverage mismatch: position has " ++ toString pos.leverage
          ++ "x, order uses " ++ toString leverage ++ "x")
      else
        let new_size := pos.size + fill.size
        let new_entry := (pos.size * pos.entry_price + fill.size * fill.price) / new_size
        Except.ok (balance - fill.fee,
          insertA positions fill.symbol
            { pos with size := new_size, entry_price := new_entry })
    else
      if fill.size < pos.size then
        let rpnl := calc_rpnl pos.side pos.entry_price fill.price fill.size
        Except.ok (balance + rpnl - fill.fee,
          insertA positions fill.symbol { pos with size := pos.size - fill.size })
      else if fill.size = pos.size then
        let rpnl := calc_rpnl pos.side pos.entry_price fill.price fill.size
        Except.ok (balance + rpnl - fill.fee, eraseA positions fill.symbol)
      else
        let close_size := pos.size
        let rpnl := calc_rpnl pos.side pos.entry_price fill.price close_size
        let remainder := fill.size - close_size
        let mmr := 1 / (2 * (leverage : ℚ))
        Except.ok (balance + rpnl - fill.fee,
          insertA positions fill.symbol
            { symbol := fill.symbol, side := fill.side, size := remainder,
              entry_price := fill.price, leverage := leverage, mmr := mmr })

/-- `apply_fill_to_position` acting on a whole `AccountState`. -/
def apply_fill_to_position (state : AccountState) (fill : Fill) (leverage : ℤ) :
    Except String AccountState :=
  (applyFillCore state.balance state.positions fill leverage).map
    (fun r => { state with balance := r.1, positions := r.2 })

/-! ## Engine state machine (engine.py)

`uuid.uuid4()` is modelled as an external supply of fresh names: a
function from a counter (carried in the engine) to strings, passed to
the handlers that create orders. -/

structure Engine where
  state : AccountState
  prices : List (String × ℚ)
  nextId : ℕ
deriving DecidableEq, Repr

/-- The engine started with `AccountState()`: `STARTING_BALANCE`, no
positions, no orders. -/
def initialEngine : Engine :=
  { state := { balance := STARTING_BALANCE, positions := [], open_orders := [] },
    prices := [], nextId := 0 }

inductive OrderResult where
  | filled (fill : Fill) (order_id : Option String)
  | resting (order_id : String)
  | rejected (reason : String)
deriving DecidableEq, Repr

inductive CancelResult where
  | cancelled (order_id : String)
  | not_found
deriving DecidableEq, Repr

/-- One pass of the scan in `Engine.check_liquidations`: accumulate
`total_upnl`, `total_mm` and the symbol with the smallest upnl (first
seen wins; `none` plays the role of the initial `float("inf")`). -/
def scanAux (prices : List (String × ℚ)) (acc : ℚ × ℚ × Option (String × ℚ)) :
    List (String × Position) → ℚ × ℚ × Option (String × ℚ)
  | [] => acc
  | e :: t =>
    let p := e.2
    let mark := (lookupA prices p.symbol).getD p.entry_price
    let upnl := (sideSign p.side : ℚ) * p.size * (mark - p.entry_price)
    let worst := match acc.2.2 with
      | none => some (p.symbol, upnl)
      | some w => if upnl < w.2 then some (p.symbol, upnl) else some w
    scanAux prices
      (acc.1 + upnl, acc.2.1 + calc_maintenance_margin p.size mark p.leverage, worst) t

/-- The `while True` body of `Engine.check_liquidations`, with explicit
fuel.  Returns the final balance, the final positions and the list of
closed symbols.  The two `none` fallthroughs are unreachable for
key-consistent non-empty position maps; at such points the Python code
would raise (`KeyError`). -/
def liqLoop (prices : List (String × ℚ)) :
    ℕ → ℚ → List (String × Position) → ℚ × List (String × Position) × List String
  | 0, bal, ps => (bal, ps, [])
  | n + 1, bal, ps =>
    if ps.isEmpty then (bal, ps, [])
    else
      let sc := scanAux prices (0, 0, none) ps
      let equity := bal + sc.1
      if is_liquidatable equity sc.2.1 true then
        match sc.2.2 with
        | some w =>
          match lookupA ps w.1 with
          | some p =>
            let mark := (lookupA prices w.1).getD p.entry_price
            let rpnl := calc_rpnl p.side p.entry_price mark p.size
            let r := liqLoop prices n (bal + rpnl) (eraseA ps w.1)
            (r.1, r.2.1, w.1 :: r.2.2)
          | none => (bal, ps, [])
        | none => (bal, ps, [])
      else (bal, ps, [])

/-- `Engine.check_liquidations` on the fields it touches.  The fuel
`ps.length` suffices: each iteration that does not exit removes one
position (proved below). -/
def check_liquidations (prices : List (String × ℚ)) (bal : ℚ)
    (ps : List (String × Position)) : ℚ × List (String × Position) × List String :=
  liqLoop prices ps.length bal ps

/-- `Engine.check_liquidations` acting on the whole engine. -/
def engineCheckLiquidations (e : Engine) : Engine × List String :=
  let r := check_liquidations e.prices e.state.balance e.state.positions
  ({ e with state := { e.state with balance := r.1, positions := r.2.1 } }, r.2.2)

/-- The scan loop of `Engine._check_limit_fills`: walk the open orders
in insertion order, apply every crossing fill to the account (a
leverage conflict is silently dropped), and collect the ids to remove. -/
def clfScan (mid : ℚ) (symbol : String) :
    ℚ → List (String × Position) → List (String × OpenOrder) →
    ℚ × List (String × Position) × List String
  | bal, ps, [] => (bal, ps, [])
  | bal, ps, e :: rest =>
    if e.2.symbol ≠ symbol then clfScan mid symbol bal ps rest
    else
      match check_limit_fill e.2 mid with
      | some fill =>
        match applyFillCore bal ps fill e.2.leverage with
        | Except.ok r =>
          let rec' := clfScan mid symbol r.1 r.2 rest
          (rec'.1, rec'.2.1, e.1 :: rec'.2.2)
        | Except.error _ =>
          let rec' := clfScan mid symbol bal ps rest
          (rec'.1, rec'.2.1, e.1 :: rec'.2.2)
      | none => clfScan mid symbol bal ps rest

/-- `Engine._check_limit_fills`. -/
def check_limit_fills (e : Engine) (symbol : String) : Engine :=
  match lookupA e.prices symbol with
  | none => e
  | some mid =>
    let r := clfScan mid symbol e.state.balance e.state.positions e.state.open_orders
    let to_remove := r.2.2
    let book := to_remove.foldl (fun b oid => eraseA b oid) e.state.open_orders
    let e2 := { e with state :=
      { balance := r.1, positions := r.2.1, open_orders := book } }
    if to_remove.isEmpty then e2 else (engineCheckLiquidations e2).1

/-- `Engine.on_price_update`. -/
def on_price_update (e : Engine) (symbol : String) (price : ℚ) : Engine :=
  check_limit_fills { e with prices := insertA e.prices symbol price } symbol

/-- `Engine._execute_market`. -/
def engineExecuteMarket (e : Engine) (intent : OrderIntent) (mid : ℚ) :
    Engine × OrderResult :=
  let fill := execute_market_order intent.symbol intent.side intent.size_value
    intent.size_unit mid
  match applyFillCore e.state.balance e.state.positions fill intent.leverage with
  | Except.error msg => (e, OrderResult.rejected msg)
  | Except.ok r =>
    let e2 := { e with state := { e.state with balance := r.1, positions := r.2 } }
    ((engineCheckLiquidations e2).1, OrderResult.filled fill none)

/-- `Engine._handle_limit`.  `str(uuid.uuid4())` becomes `gen e.nextId`
with the counter bumped. -/
def engineHandleLimit (gen : ℕ → String) (e : Engine) (intent : OrderIntent)
    (mid : ℚ) : Engine × OrderResult :=
  let base_size := convert_size intent.size_value intent.size_unit mid
  let oid := gen e.nextId
  let e1 := { e with nextId := e.nextId + 1 }
  let order : OpenOrder :=
    { order_id := oid, symbol := intent.symbol, side := intent.side,
      order_type := intent.order_type, size := base_size,
      limit_price := intent.limit_price, leverage := intent.leverage,
      reduce_only := intent.reduce_only, client_id := intent.client_id,
      timestamp := intent.timestamp }
  match check_limit_fill order mid with
  | some fill =>
    match applyFillCore e1.state.balance e1.state.positions fill intent.leverage with
    | Except.error msg => (e1, OrderResult.rejected msg)
    | Except.ok r =>
      let e2 := { e1 with state := { e1.state with balance := r.1, positions := r.2 } }
      ((engineCheckLiquidations e2).1, OrderResult.filled fill (some oid))
  | none =>
    ({ e1 with state :=
       { e1.state with open_orders := insertA e1.state.open_orders oid order } },
     OrderResult.resting oid)

/-- The branch on `intent.order_type` at the end of `Engine.on_order`. -/
def dispatchOrder (gen : ℕ → String) (e : Engine) (intent : OrderIntent)
    (mid : ℚ) : Engine × OrderResult :=
  if intent.order_type = OrderType.MARKET then engineExecuteMarket e intent mid
  else engineHandleLimit gen e intent mid

/-- `Engine.on_order`. -/
def on_order (gen : ℕ → String) (e : Engine) (intent : OrderIntent) :
    Engine × OrderResult :=
  match lookupA e.prices intent.symbol with
  | none => (e, OrderResult.rejected "no price available")
  | some mid =>
    match lookupA e.state.positions intent.symbol with
    | some pos =>
      if pos.side = intent.side ∧ intent.leverage ≠ pos.leverage then
        (e, OrderResult.rejected ("leverage mismatch: position has "
          ++ toString pos.leverage ++ "x, order uses "
          ++ toString intent.leverage ++ "x"))
      else dispatchOrder gen e intent mid
    | none => dispatchOrder gen e intent mid

/-- `Engine.on_cancel`. -/
def on_cancel (e : Engine) (order_id : String) : Engine × CancelResult :=
  match lookupA e.state.open_orders order_id with
  | none => (e, CancelResult.not_found)
  | some _ =>
    ({ e with state :=
       { e.state with open_orders := eraseA e.state.open_orders order_id } },
     CancelResult.cancelled order_id)

/-! ## Event sequences -/

inductive Event where
  | price (symbol : String) (value : ℚ)
  | order (intent : OrderIntent)
  | cancel (order_id : String)
deriving DecidableEq, Repr

inductive EventResult where
  | priceAck
  | orderResult (r : OrderResult)
  | cancelResult (r : CancelResult)
deriving DecidableEq, Repr

def stepEvent (gen : ℕ → String) (e : Engine) : Event → Engine × EventResult
  | Event.price sym v => (on_price_update e sym v, EventResult.priceAck)
  | Event.order intent =>
    let r := on_order gen e intent
    (r.1, EventResult.orderResult r.2)
  | Event.cancel oid =>
    let r := on_cancel e oid
    (r.1, EventResult.cancelResult r.2)

/-- Process a sequence of events, returning the final engine and the
result record of every event in order. -/
def runEvents (gen : ℕ → String) (e : Engine) : List Event → Engine × List EventResult
  | [] => (e, [])
  | ev :: rest =>
    let s := stepEvent gen e ev
    let r := runEvents gen s.1 rest
    (r.1, s.2 :: r.2)

/-! ## Spec-side derived quantities -/

/-- The mark used by the liquidation loop: `prices.get(symbol, entry)`. -/
def markOf (prices : List (String × ℚ)) (p : Position) : ℚ :=
  (lookupA prices p.symbol).getD p.entry_price

/-- `upnl` of one position at its mark. -/
def posUpnl (prices : List (String × ℚ)) (p : Position) : ℚ :=
  (sideSign p.side : ℚ) * p.size * (markOf prices p - p.entry_price)

/-- `total_upnl`: the sum the liquidation scan accumulates. -/
def totalUpnl (prices : List (String × ℚ)) (ps : List (String × Position)) : ℚ :=
  (ps.map (fun e => posUpnl prices e.2)).sum

/-- `total_mm`: the sum of maintenance margins at the current marks. -/
def totalMM (prices : List (String × ℚ)) (ps : List (String × Position)) : ℚ :=
  (ps.map (fun e => calc_maintenance_margin e.2.size (markOf prices e.2) e.2.leverage)).sum

/-- A well-formed positions map binds every symbol to a position
carrying that symbol; Python maintains this because every write is at
key `fill.symbol`. -/
def KeyConsistent (ps : List (String × Position)) : Prop :=
  ∀ e ∈ ps, e.2.symbol = e.1

instance : DecidablePred KeyConsistent := fun ps =>
  inferInstanceAs (Decidable (∀ e ∈ ps, e.2.symbol = e.1))

/-! ## Association-list lemmas -/

theorem lookupA_mem {α : Type} {l : List (String × α)} {k : String} {v : α}
    (h : lookupA l k = some v) : (k, v) ∈ l := by
  induction l with
  | nil => simp [lookupA] at h
  | cons e t ih =>
    rcases e with ⟨k0, v0⟩
    by_cases hk : k0 = k
    · subst hk
      simp [lookupA] at h
      simp [h]
    · simp [lookupA, hk] at h
      exact List.mem_cons_of_mem _ (ih h)

theorem lookupA_isSome_of_mem_keys {α : Type} {l : List (String × α)} {k : String}
    (h : k ∈ keysA l) : (lookupA l k).isSome := by
  induction l with
  | nil => simp [keysA] at h
  | cons e t ih =>
    rcases e with ⟨k0, v0⟩
    by_cases hk : k0 = k
    · simp [lookupA, hk]
    · simp [keysA] at h
      rcases h with h | h
      · exact absurd h.symm hk
      · simpa [lookupA, hk] using ih (by simpa [keysA] using h)

theorem mem_keysA_of_mem {α : Type} {l : List (String × α)} {e : String × α}
    (h : e ∈ l) : e.1 ∈ keysA l :=
  List.mem_map_of_mem Prod.fst h

theorem mem_of_mem_eraseA {α : Type} {l : List (String × α)} {k : String}
    {e : String × α} (h : e ∈ eraseA l k) : e ∈ l := by
  induction l with
  | nil => simp [eraseA] at h
  | cons e0 t ih =>
    rcases e0 with ⟨k0, v0⟩
    by_cases hk : k0 = k
    · simp [eraseA, hk] at h
      exact List.mem_cons_of_mem _ h
    · simp [eraseA, hk] at h
      rcases h with h | h
      · simp [h]
      · exact List.mem_cons_of_mem _ (ih h)

theorem length_eraseA_of_mem_keys {α : Type} {l : List (String × α)} {k : String}
    (h : k ∈ keysA l) : (eraseA l k).length + 1 = l.length := by
  induction l with
  | nil => simp [keysA] at h
  | cons e t ih =>
    rcases e with ⟨k0, v0⟩
    by_cases hk : k0 = k
    · simp [eraseA, hk]
    · simp [keysA] at h
      rcases h with h | h
      · exact absurd h.symm hk
      · simp [eraseA, hk, ih (by simpa [keysA] using h)]

theorem mem_of_mem_insertA {α : Type} {l : List (String × α)} {k : String} {v : α}
    {e : String × α} (h : e ∈ insertA l k v) : e = (k, v) ∨ e ∈ l := by
  induction l with
  | nil => simpa [insertA] using h
  | cons e0 t ih =>
    rcases e0 with ⟨k0, v0⟩
    by_cases hk : k0 = k
    · simp [insertA, hk] at h
      rcases h with h | h
      · exact Or.inl h
      · exact Or.inr (List.mem_cons_of_mem _ h)
    · simp [insertA, hk] at h
      rcases h with h | h
      · exact Or.inr (by simp [h])
      · rcases ih h with h | h
        · exact Or.inl h
        · exact Or.inr (List.mem_cons_of_mem _ h)

theorem lookupA_insertA_self {α : Type} (l : List (String × α)) (k : String) (v : α) :
    lookupA (insertA l k v) k = some v := by
  induction l with
  | nil => simp [insertA, lookupA]
  | cons e t ih =>
    rcases e with ⟨k0, v0⟩
    by_cases hk : k0 = k
    · simp [insertA, hk, lookupA]
    · simp [insertA, hk, lookupA, ih]

theorem insertA_of_not_mem_keys {α : Type} {l : List (String × α)} {k : String}
    (v : α) (h : k ∉ keysA l) : insertA l k v = l ++ [(k, v)] := by
  induction l with
  | nil => simp [insertA]
  | cons e t ih =>
    rcases e with ⟨k0, v0⟩
    simp [keysA] at h
    simp [insertA, Ne.symm h.1, ih (by simpa [keysA] using h.2)]

/-! ## Key-consistency lemmas -/

theorem KeyConsistent.erase {ps : List (String × Position)} (h : KeyConsistent ps)
    (k : String) : KeyConsistent (eraseA ps k) :=
  fun e he => h e (mem_of_mem_eraseA he)

theorem KeyConsistent.insert {ps : List (String × Position)} (h : KeyConsistent ps)
    {k : String} {v : Position} (hv : v.symbol = k) :
    KeyConsistent (insertA ps k v) := by
  intro e he
  rcases mem_of_mem_insertA he with he | he
  · subst he
    exact hv
  · exact h e he

theorem KeyConsistent.lookup_symbol {ps : List (String × Position)} (h : KeyConsistent ps)
    {k : String} {p : Position} (hp : lookupA ps k = some p) : p.symbol = k :=
  h (k, p) (lookupA_mem hp)

/-- Every successful `apply_fill_to_position` keeps the positions map
key-consistent: every write is at key `fill.symbol`. -/
theorem applyFillCore_keyConsistent {bal : ℚ} {ps : List (String × Position)}
    {fill : Fill} {lev : ℤ} {r : ℚ × List (String × Position)}
    (h : KeyConsistent ps) (hr : applyFillCore bal ps fill lev = Except.ok r) :
    KeyConsistent r.2 := by
  unfold applyFillCore at hr
  rcases hp : lookupA ps fill.symbol with _ | pos
  · rw [hp] at hr
    simp only [Except.ok.injEq] at hr
    subst hr
    exact h.insert rfl
  · rw [hp] at hr
    dsimp only at hr
    have hsym := h.lookup_symbol hp
    by_cases hside : pos.side = fill.side
    · by_cases hlev : lev = pos.leverage
      · rw [if_pos hside, if_neg (by simp [hlev])] at hr
        simp only [Except.ok.injEq] at hr
        subst hr
        exact h.insert hsym
      · rw [if_pos hside, if_pos hlev] at hr
        simp at hr
    · by_cases hlt : fill.size < pos.size
      · rw [if_neg hside, if_pos hlt] at hr
        simp only [Except.ok.injEq] at hr
        subst hr
        exact h.insert hsym
      · by_cases heq : fill.size = pos.size
        · rw [if_neg hside, if_neg hlt, if_pos heq] at hr
          simp only [Except.ok.injEq] at hr
          subst hr
          exact h.erase _
        · rw [if_neg hside, if_neg hlt, if_neg heq] at hr
          simp only [Except.ok.injEq] at hr
          subst hr
          exact h.insert rfl

/-! ## Liquidation scan lemmas -/

theorem scanAux_fst (prices : List (String × ℚ)) (l : List (String × Position)) :
    ∀ acc, (scanAux prices acc l).1 = acc.1 + totalUpnl prices l := by
  induction l with
  | nil => intro acc; simp [scanAux, totalUpnl]
  | cons e t ih =>
    intro acc
    simp only [scanAux]
    rw [ih]
    simp only [totalUpnl, List.map_cons, List.sum_cons, posUpnl, markOf]
    ring

theorem scanAux_snd (prices : List (String × ℚ)) (l : List (String × Position)) :
    ∀ acc, (scanAux prices acc l).2.1 = acc.2.1 + totalMM prices l := by
  induction l with
  | nil => intro acc; simp [scanAux, totalMM]
  | cons e t ih =>
    intro acc
    simp only [scanAux]
    rw [ih]
    simp only [totalMM, List.map_cons, List.sum_cons, markOf]
    ring

theorem scanAux_worst_none (prices : List (String × ℚ)) (l : List (String × Position)) :
    ∀ acc, (scanAux prices acc l).2.2 = none → acc.2.2 = none ∧ l = [] := by
  induction l with
  | nil =>
    intro acc h
    exact ⟨by simpa [scanAux] using h, rfl⟩
  | cons e t ih =>
    intro acc h
    simp only [scanAux] at h
    cases hacc : acc.2.2 with
    | none =>
      rw [hacc] at h
      dsimp only at h
      have h2 := (ih _ h).1
      exact Option.noConfusion h2
    | some w0 =>
      rw [hacc] at h
      dsimp only at h
      have h2 := (ih _ h).1
      dsimp only at h2
      split at h2 <;> exact Option.noConfusion h2

theorem scanAux_worst_mem (prices : List (String × ℚ)) (l : List (String × Position)) :
    ∀ acc w, (scanAux prices acc l).2.2 = some w →
      acc.2.2 = some w ∨ ∃ e ∈ l, e.2.symbol = w.1 := by
  induction l with
  | nil =>
    intro acc w h
    exact Or.inl (by simpa [scanAux] using h)
  | cons e t ih =>
    intro acc w h
    simp only [scanAux] at h
    cases hacc : acc.2.2 with
    | none =>
      rw [hacc] at h
      dsimp only at h
      rcases ih _ _ h with h1 | h1
      · dsimp only at h1
        simp only [Option.some.injEq] at h1
        right
        exact ⟨e, List.mem_cons_self e t, by rw [← h1]⟩
      · right
        rcases h1 with ⟨e1, he1, hs⟩
        exact ⟨e1, List.mem_cons_of_mem _ he1, hs⟩
    | some w0 =>
      rw [hacc] at h
      dsimp only at h
      rcases ih _ _ h with h1 | h1
      · dsimp only at h1
        split at h1
        · simp only [Option.some.injEq] at h1
          right
          exact ⟨e, List.mem_cons_self e t, by rw [← h1]⟩
        · left
          exact h1
      · right
        rcases h1 with ⟨e1, he1, hs⟩
        exact ⟨e1, List.mem_cons_of_mem _ he1, hs⟩

/-! ## Liquidation loop lemmas -/

theorem liqLoop_nil (prices : List (String × ℚ)) (n : ℕ) (bal : ℚ) :
    liqLoop prices n bal [] = (bal, [], []) := by
  cases n <;> simp [liqLoop]

theorem liqLoop_exit (prices : List (String × ℚ)) (n : ℕ) (bal : ℚ)
    (ps : List (String × Position))
    (hliq : is_liquidatable (bal + (scanAux prices (0, 0, none) ps).1)
      (scanAux prices (0, 0, none) ps).2.1 true = false) :
    liqLoop prices (n + 1) bal ps = (bal, ps, []) := by
  by_cases hne : ps = []
  · subst hne
    exact liqLoop_nil prices (n + 1) bal
  · simp only [liqLoop]
    rw [if_neg (by simpa [List.isEmpty_iff] using hne)]
    simp only [hliq]
    simp

theorem liqLoop_step (prices : List (String × ℚ)) (n : ℕ) (bal : ℚ)
    (ps : List (String × Position)) (hkc : KeyConsistent ps) (hne : ps ≠ [])
    (hliq : is_liquidatable (bal + (scanAux prices (0, 0, none) ps).1)
      (scanAux prices (0, 0, none) ps).2.1 true = true) :
    ∃ w p, (scanAux prices (0, 0, none) ps).2.2 = some w ∧ lookupA ps w.1 = some p ∧
      w.1 ∈ keysA ps ∧
      liqLoop prices (n + 1) bal ps =
        ((liqLoop prices n
            (bal + calc_rpnl p.side p.entry_price
              ((lookupA prices w.1).getD p.entry_price) p.size) (eraseA ps w.1)).1,
         (liqLoop prices n
            (bal + calc_rpnl p.side p.entry_price
              ((lookupA prices w.1).getD p.entry_price) p.size) (eraseA ps w.1)).2.1,
         w.1 :: (liqLoop prices n
            (bal + calc_rpnl p.side p.entry_price
              ((lookupA prices w.1).getD p.entry_price) p.size) (eraseA ps w.1)).2.2) := by
  cases hw : (scanAux prices (0, 0, none) ps).2.2 with
  | none => exact absurd (scanAux_worst_none prices ps _ hw).2 hne
  | some w =>
    have hk : w.1 ∈ keysA ps := by
      rcases scanAux_worst_mem prices ps _ _ hw with h1 | h1
      · exact Option.noConfusion h1
      · rcases h1 with ⟨e, he, hs⟩
        rw [← hs, hkc e he]
        exact mem_keysA_of_mem he
    have hsome := @lookupA_isSome_of_mem_keys Position ps w.1 hk
    cases hp : lookupA ps w.1 with
    | none => rw [hp] at hsome; exact Bool.noConfusion hsome
    | some p =>
      refine ⟨w, p, rfl, hp, hk, ?_⟩
      simp only [liqLoop]
      rw [if_neg (by simpa [List.isEmpty_iff] using hne)]
      simp only [hliq, if_true, hw, hp]

theorem liqLoop_post (prices : List (String × ℚ)) :
    ∀ (n : ℕ) (bal : ℚ) (ps : List (String × Position)), KeyConsistent ps →
      ps.length ≤ n →
      (liqLoop prices n bal ps).2.1 = [] ∨
        totalMM prices (liqLoop prices n bal ps).2.1 ≤
          (liqLoop prices n bal ps).1 + totalUpnl prices (liqLoop prices n bal ps).2.1 := by
  intro n
  induction n with
  | zero =>
    intro bal ps hkc hlen
    left
    have : ps = [] := List.length_eq_zero.mp (Nat.le_zero.mp hlen)
    simp [liqLoop, this]
  | succ n ih =>
    intro bal ps hkc hlen
    by_cases hne : ps = []
    · left
      rw [hne, liqLoop_nil]
    · by_cases hliq : is_liquidatable (bal + (scanAux prices (0, 0, none) ps).1)
        (scanAux prices (0, 0, none) ps).2.1 true = true
      · obtain ⟨w, p, hw, hp, hk, heq⟩ := liqLoop_step prices n bal ps hkc hne hliq
        rw [heq]
        have hlen2 : (eraseA ps w.1).length ≤ n := by
          have := length_eraseA_of_mem_keys hk
          omega
        exact ih _ _ (hkc.erase w.1) hlen2
      · right
        rw [Bool.not_eq_true] at hliq
        rw [liqLoop_exit prices n bal ps hliq]
        have h1 := scanAux_fst prices ps (0, 0, none)
        have h2 := scanAux_snd prices ps (0, 0, none)
        simp only [is_liquidatable, not_true, if_false, decide_eq_false_iff_not, not_lt] at hliq
        rw [h1, h2] at hliq
        simpa using hliq

theorem liqLoop_succ_of_le (prices : List (String × ℚ)) :
    ∀ (n : ℕ) (bal : ℚ) (ps : List (String × Position)), KeyConsistent ps →
      ps.length ≤ n → liqLoop prices (n + 1) bal ps = liqLoop prices n bal ps := by
  intro n
  induction n with
  | zero =>
    intro bal ps _ hlen
    have : ps = [] := List.length_eq_zero.mp (Nat.le_zero.mp hlen)
    rw [this, liqLoop_nil, liqLoop_nil]
  | succ n ih =>
    intro bal ps hkc hlen
    by_cases hne : ps = []
    · rw [hne, liqLoop_nil, liqLoop_nil]
    · by_cases hliq : is_liquidatable (bal + (scanAux prices (0, 0, none) ps).1)
        (scanAux prices (0, 0, none) ps).2.1 true = true
      · obtain ⟨w, p, hw, hp, hk, heq1⟩ := liqLoop_step prices (n + 1) bal ps hkc hne hliq
        obtain ⟨w2, p2, hw2, hp2, hk2, heq2⟩ := liqLoop_step prices n bal ps hkc hne hliq
        rw [hw] at hw2
        injection hw2 with hww
        subst hww
        rw [hp] at hp2
        injection hp2 with hpp
        subst hpp
        rw [heq1, heq2]
        have hlen2 : (eraseA ps w.1).length ≤ n := by
          have := length_eraseA_of_mem_keys hk
          omega
        rw [ih _ _ (hkc.erase w.1) hlen2]
      · rw [Bool.not_eq_true] at hliq
        rw [liqLoop_exit prices (n + 1) bal ps hliq, liqLoop_exit prices n bal ps hliq]

theorem liqLoop_ge (prices : List (String × ℚ)) (bal : ℚ)
    (ps : List (String × Position)) (hkc : KeyConsistent ps) :
    ∀ (k : ℕ), liqLoop prices (ps.length + k) bal ps = check_liquidations prices bal ps := by
  intro k
  induction k with
  | zero => rfl
  | succ k ihk =>
    rw [show ps.length + (k + 1) = (ps.length + k) + 1 from rfl,
      liqLoop_succ_of_le prices (ps.length + k) bal ps hkc (by omega), ihk]

/-! ## Example data for witnesses -/

def exPrices : List (String × ℚ) := [("BTC", 100)]

def exPosBtc : Position :=
  { symbol := "BTC", side := Side.BUY, size := 1, entry_price := 100,
    leverage := 10, mmr := 1 / 20 }

def exPositions : List (String × Position) := [("BTC", exPosBtc)]

/-! ## Claim C2 -/

/-- C2: whenever the liquidation loop returns, either the positions map
is empty or equity (balance plus total unrealized PnL at the current
marks, entry price standing in as mark where no price is known) is at
least the total maintenance margin; equity exactly equal to the total
maintenance margin is solvent and the loop closes nothing (the
liquidation test is strict `<`); and an account with no positions is
never liquidated regardless of balance. -/
theorem liquidation_loop_postcondition (prices : List (String × ℚ)) (bal : ℚ)
    (ps : List (String × Position)) (hkc : KeyConsistent ps) :
    ((check_liquidations prices bal ps).2.1 = [] ∨
      totalMM prices (check_liquidations prices bal ps).2.1 ≤
        (check_liquidations prices bal ps).1 +
          totalUpnl prices (check_liquidations prices bal ps).2.1)
    ∧ (ps = [] → check_liquidations prices bal ps = (bal, ps, []))
    ∧ (bal + totalUpnl prices ps = totalMM prices ps →
        check_liquidations prices bal ps = (bal, ps, [])) := by
  refine ⟨liqLoop_post prices ps.length bal ps hkc le_rfl, ?_, ?_⟩
  · intro h
    subst h
    exact liqLoop_nil prices 0 bal
  · intro heq
    by_cases hne : ps = []
    · subst hne
      exact liqLoop_nil prices 0 bal
    · have hliq : is_liquidatable (bal + (scanAux prices (0, 0, none) ps).1)
          (scanAux prices (0, 0, none) ps).2.1 true = false := by
        rw [scanAux_fst, scanAux_snd]
        simp only [is_liquidatable, not_true, if_false, decide_eq_false_iff_not, not_lt]
        linarith [heq.le, heq.ge]
      obtain ⟨m, hm⟩ : ∃ m, ps.length = m + 1 := by
        cases ps with
        | nil => exact absurd rfl hne
        | cons a l => exact ⟨l.length, rfl⟩
      rw [check_liquidations, hm, liqLoop_exit prices m bal ps hliq]

/-- Witness for C2 at a concrete solvent account. -/
theorem liquidation_loop_postcondition_witness :
    KeyConsistent exPositions ∧
    (((check_liquidations exPrices 10000 exPositions).2.1 = [] ∨
      totalMM exPrices (check_liquidations exPrices 10000 exPositions).2.1 ≤
        (check_liquidations exPrices 10000 exPositions).1 +
          totalUpnl exPrices (check_liquidations exPrices 10000 exPositions).2.1)
    ∧ (exPositions = [] → check_liquidations exPrices 10000 exPositions = (10000, exPositions, []))
    ∧ (10000 + totalUpnl exPrices exPositions = totalMM exPrices exPositions →
        check_liquidations exPrices 10000 exPositions = (10000, exPositions, []))) :=
  ⟨by decide, liquidation_loop_postcondition exPrices 10000 exPositions (by decide)⟩

/-! ## Claim C9 -/

/-- C9: the liquidation loop terminates in at most `|positions|`
iterations — running it with any fuel at least `|positions|` gives the
same result as running it with fuel exactly `|positions|` (which is what
`check_liquidations` does) — and each iteration that does not exit
deletes exactly one position: erasing the worst symbol selected by the
scan shrinks the positions map by exactly one entry. -/
theorem liquidation_terminates_within_position_count (prices : List (String × ℚ))
    (bal : ℚ) (ps : List (String × Position)) (n : ℕ)
    (hkc : KeyConsistent ps) (hn : ps.length ≤ n) :
    liqLoop prices n bal ps = check_liquidations prices bal ps
    ∧ ∀ w, (scanAux prices (0, 0, none) ps).2.2 = some w →
        (eraseA ps w.1).length + 1 = ps.length := by
  constructor
  · obtain ⟨k, hk⟩ : ∃ k, n = ps.length + k := ⟨n - ps.length, by omega⟩
    subst hk
    exact liqLoop_ge prices bal ps hkc k
  · intro w hw
    rcases scanAux_worst_mem prices ps _ _ hw with h1 | h1
    · exact Option.noConfusion h1
    · rcases h1 with ⟨e, he, hs⟩
      refine length_eraseA_of_mem_keys ?_
      rw [← hs, hkc e he]
      exact mem_keysA_of_mem he

/-- Witness for C9 at a concrete account, with surplus fuel 5 and the
concrete worst symbol selected by the scan. -/
theorem liquidation_terminates_within_position_count_witness :
    (KeyConsistent exPositions ∧ exPositions.length ≤ 5) ∧
    liqLoop exPrices 5 10000 exPositions = check_liquidations exPrices 10000 exPositions ∧
    (eraseA exPositions "BTC").length + 1 = exPositions.length :=
  ⟨⟨by decide, by decide⟩,
   (liquidation_terminates_within_position_count exPrices 10000 exPositions 5
      (by decide) (by decide)).1,
   (liquidation_terminates_within_position_count exPrices 10000 exPositions 5
      (by decide) (by decide)).2 ("BTC", 0)
      (by norm_num [scanAux, exPositions, exPosBtc, exPrices, lookupA, sideSign,
        calc_maintenance_margin])⟩

/-! ## Nodup keys (Python dicts cannot hold a key twice) -/

def NodupKeys {α : Type} (l : List (String × α)) : Prop :=
  (keysA l).Nodup

instance {α : Type} : DecidablePred (@NodupKeys α) := fun l =>
  inferInstanceAs (Decidable (keysA l).Nodup)

theorem lookupA_eq_none_of_not_mem_keys {α : Type} {l : List (String × α)}
    {k : String} (h : k ∉ keysA l) : lookupA l k = none := by
  induction l with
  | nil => rfl
  | cons e t ih =>
    rcases e with ⟨k0, v0⟩
    simp [keysA] at h
    simp [lookupA, Ne.symm h.1, ih (by simpa [keysA] using h.2)]

theorem lookupA_eraseA_self {α : Type} {l : List (String × α)} {k : String}
    (h : NodupKeys l) : lookupA (eraseA l k) k = none := by
  induction l with
  | nil => rfl
  | cons e t ih =>
    rcases e with ⟨k0, v0⟩
    rcases (by simpa [NodupKeys, keysA] using h : k0 ∉ keysA t ∧ NodupKeys t)
      with ⟨hk0, ht⟩
    by_cases hk : k0 = k
    · subst hk
      simp only [eraseA, if_pos rfl]
      exact lookupA_eq_none_of_not_mem_keys hk0
    · simp only [eraseA, if_neg hk, lookupA]
      exact ih ht

/-! ## Claim C1 -/

/-- C1: applying an opposite-side fill splits exactly on sizes.
`fill.size < pos.size`: the position shrinks by exactly `fill.size`,
its entry price, side, leverage and mmr are unchanged, and the balance
moves by `rpnl(pos.side, pos.entry, fill.price, fill.size) − fill.fee`.
`fill.size = pos.size`: the position is deleted and the balance moves by
rpnl on the full `pos.size` minus the fee.  `fill.size > pos.size`: the
position is replaced by one on the fill's side with
`size = fill.size − pos.size`, `entry_price = fill.price` and
leverage/mmr from the order, with the balance moved by rpnl on
`pos.size` minus the fee. -/
theorem apply_fill_opposite_side_cases (st : AccountState) (fill : Fill) (lev : ℤ)
    (pos : Position) (hpos : lookupA st.positions fill.symbol = some pos)
    (hopp : ¬ pos.side = fill.side) (hnd : NodupKeys st.positions) :
    (fill.size < pos.size →
      ∃ st2, apply_fill_to_position st fill lev = Except.ok st2 ∧
        lookupA st2.positions fill.symbol =
          some { pos with size := pos.size - fill.size } ∧
        st2.balance = st.balance
          + calc_rpnl pos.side pos.entry_price fill.price fill.size - fill.fee)
    ∧ (fill.size = pos.size →
      ∃ st2, apply_fill_to_position st fill lev = Except.ok st2 ∧
        lookupA st2.positions fill.symbol = none ∧
        st2.balance = st.balance
          + calc_rpnl pos.side pos.entry_price fill.price pos.size - fill.fee)
    ∧ (pos.size < fill.size →
      ∃ st2, apply_fill_to_position st fill lev = Except.ok st2 ∧
        lookupA st2.positions fill.symbol =
          some { symbol := fill.symbol, side := fill.side,
                 size := fill.size - pos.size, entry_price := fill.price,
                 leverage := lev, mmr := 1 / (2 * (lev : ℚ)) } ∧
        st2.balance = st.balance
          + calc_rpnl pos.side pos.entry_price fill.price pos.size - fill.fee) := by
  unfold apply_fill_to_position applyFillCore
  rw [hpos]
  dsimp only
  rw [if_neg hopp]
  refine ⟨?_, ?_, ?_⟩
  · intro hlt
    rw [if_pos hlt]
    exact ⟨_, rfl, lookupA_insertA_self _ _ _, rfl⟩
  · intro heq
    rw [if_neg (by rw [heq]; exact lt_irrefl _), if_pos heq]
    refine ⟨_, rfl, lookupA_eraseA_self hnd, ?_⟩
    rw [heq]
  · intro hgt
    rw [if_neg (by exact not_lt_of_gt hgt), if_neg (by exact ne_of_gt hgt)]
    exact ⟨_, rfl, lookupA_insertA_self _ _ _, rfl⟩

def exAccount : AccountState :=
  { balance := 10000, positions := exPositions, open_orders := [] }

def exFillSell : Fill :=
  { symbol := "BTC", side := Side.SELL, size := 1 / 2, price := 110, fee := 2 }

/-- Witness for C1: a reduce fill (half the position) at a concrete
account. -/
theorem apply_fill_opposite_side_cases_witness :
    ((1 : ℚ) / 2 < 1 ∧ ¬ exPosBtc.side = exFillSell.side ∧ NodupKeys exAccount.positions) ∧
    (∃ st2, apply_fill_to_position exAccount exFillSell 10 = Except.ok st2 ∧
      lookupA st2.positions exFillSell.symbol =
        some { exPosBtc with size := exPosBtc.size - exFillSell.size } ∧
      st2.balance = exAccount.balance
        + calc_rpnl exPosBtc.side exPosBtc.entry_price exFillSell.price exFillSell.size
        - exFillSell.fee) :=
  ⟨⟨by norm_num, by decide, by decide⟩,
   (apply_fill_opposite_side_cases exAccount exFillSell 10 exPosBtc rfl
      (by decide) (by decide)).1 (by norm_num [exFillSell, exPosBtc])⟩

/-! ## Claim C7 -/

/-- C7: whenever `on_order` returns a rejection — no price available, or
a leverage mismatch caught by the pre-check or raised while applying the
fill — the account state (balance, positions, open orders) is exactly
the state before the call. -/
theorem on_order_rejection_leaves_state (gen : ℕ → String) (e : Engine)
    (intent : OrderIntent) (e2 : Engine) (reason : String)
    (h : on_order gen e intent = (e2, OrderResult.rejected reason)) :
    e2.state = e.state := by
  simp only [on_order, dispatchOrder, engineExecuteMarket, engineHandleLimit] at h
  repeat' split at h
  all_goals
    first
      | (injection h with h1 h2; subst h1; rfl)
      | (injection h with h1 h2; exact OrderResult.noConfusion h2)

def exIntentMarket : OrderIntent :=
  { symbol := "BTC", side := Side.BUY, order_type := OrderType.MARKET,
    size_value := 5000, size_unit := SizeUnit.USD, leverage := 10,
    limit_price := 0, reduce_only := false, client_id := "c1", timestamp := 1000 }

/-- Witness for C7: submitting an order before any price tick is
rejected with reason `no price available` and leaves the state. -/
theorem on_order_rejection_leaves_state_witness :
    on_order (fun _ => "a") initialEngine exIntentMarket =
      (initialEngine, OrderResult.rejected "no price available") ∧
    initialEngine.state = initialEngine.state :=
  ⟨rfl, on_order_rejection_leaves_state (fun _ => "a") initialEngine exIntentMarket
    initialEngine "no price available" rfl⟩

/-! ## Claim C5 -/

def zeroSizeIntent : OrderIntent :=
  { symbol := "BTC", side := Side.BUY, order_type := OrderType.MARKET,
    size_value := 0, size_unit := SizeUnit.USD, leverage := 10,
    limit_price := 0, reduce_only := false, client_id := "c2", timestamp := 1000 }

/-- C5 fails on the code: a market order with `size_value = 0` (a
valid-shape intent per the spec) against a symbol with no prior position
stores a `Position` with `size = 0` in the positions map — a ghost
position the spec forbids.  This theorem evaluates the engine at that
input. -/
theorem zero_size_order_creates_ghost_position :
    lookupA (on_order (fun _ => "a")
        (on_price_update initialEngine "BTC" 50000) zeroSizeIntent).1.state.positions "BTC"
      = some { symbol := "BTC", side := Side.BUY, size := 0, entry_price := 50000,
               leverage := 10, mmr := 1 / 20 } := by
  norm_num [on_order, on_price_update, check_limit_fills, clfScan, dispatchOrder,
    engineExecuteMarket, execute_market_order, calc_exec_price, convert_size,
    calc_slippage, apply_slippage, calc_fee, applyFillCore, lookupA, insertA,
    engineCheckLiquidations, check_liquidations, liqLoop, scanAux, is_liquidatable,
    calc_maintenance_margin, sideSign, initialEngine, zeroSizeIntent,
    STARTING_BALANCE, TAKER_FEE_RATE, exIntentMarket]

/-! ## Claim C10 -/

/-- C10 (amended): for a market order with `size_unit = USD`, positive
`size_value` and positive mid, the produced fill satisfies
`fill.size · fill.price = size_value` exactly and
`fill.fee = size_value · fee_rate`, provided the slippage-adjusted
execution price is nonzero — i.e. except for a sell of exactly `10^9`
USD, where slippage reaches 100% and the execution price is zero (there
the Python code divides by zero). -/
theorem market_usd_order_notional_exact (symbol : String) (side : Side)
    (sv mid rate : ℚ) (hsv : 0 < sv) (hmid : 0 < mid)
    (hok : side = Side.BUY ∨ sv ≠ 10 ^ 9) :
    (execute_market_order symbol side sv SizeUnit.USD mid rate).size *
      (execute_market_order symbol side sv SizeUnit.USD mid rate).price = sv ∧
    (execute_market_order symbol side sv SizeUnit.USD mid rate).fee = sv * rate := by
  have hmid' : mid ≠ 0 := ne_of_gt hmid
  have hmn : sv / mid * mid = sv := div_mul_cancel₀ sv hmid'
  simp only [execute_market_order, calc_exec_price, convert_size, calc_slippage,
    apply_slippage, calc_fee, eq_self_iff_true, if_true]
  rw [hmn]
  have hexec : (if side = Side.BUY then mid * (1 + sv / 100000 * (1 / 10000))
      else mid * (1 - sv / 100000 * (1 / 10000))) ≠ 0 := by
    cases side with
    | BUY =>
      rw [if_pos rfl]
      have hs : 0 < sv / 100000 * (1 / 10000) := by positivity
      have : 0 < mid * (1 + sv / 100000 * (1 / 10000)) := by nlinarith
      exact ne_of_gt this
    | SELL =>
      rw [if_neg (by intro hc; exact Side.noConfusion hc)]
      rcases hok with hb | hne
      · exact absurd hb (by intro hc; exact Side.noConfusion hc)
      · intro hz
        rcases mul_eq_zero.mp hz with hz1 | hz2
        · exact hmid' hz1
        · exact hne (by linarith)
  constructor
  · exact div_mul_cancel₀ sv hexec
  · rw [div_mul_cancel₀ sv hexec]

/-- Witness for C10: a concrete 5000-USD buy at mid 50000. -/
theorem market_usd_order_notional_exact_witness :
    ((0 : ℚ) < 5000 ∧ (0 : ℚ) < 50000) ∧
    ((execute_market_order "BTC" Side.BUY 5000 SizeUnit.USD 50000 TAKER_FEE_RATE).size *
      (execute_market_order "BTC" Side.BUY 5000 SizeUnit.USD 50000 TAKER_FEE_RATE).price = 5000 ∧
    (execute_market_order "BTC" Side.BUY 5000 SizeUnit.USD 50000 TAKER_FEE_RATE).fee =
      5000 * TAKER_FEE_RATE) :=
  ⟨⟨by norm_num, by norm_num⟩,
   market_usd_order_notional_exact "BTC" Side.BUY 5000 50000 TAKER_FEE_RATE
     (by norm_num) (by norm_num) (Or.inl rfl)⟩

/-- Counterexample for C10 as stated: a sell of exactly `10^9` USD has
slippage 100%, execution price `0`, and the embedded total division
yields `fill.size · fill.price = 0 ≠ 10^9` (the Python code raises
`ZeroDivisionError` at this input, so no fill with the stated property
is produced). -/
theorem market_usd_sell_slippage_one_counterexample :
    ¬ ((execute_market_order "BTC" Side.SELL (10 ^ 9) SizeUnit.USD 100 TAKER_FEE_RATE).size *
       (execute_market_order "BTC" Side.SELL (10 ^ 9) SizeUnit.USD 100 TAKER_FEE_RATE).price
         = 10 ^ 9) := by
  have hzero : (execute_market_order "BTC" Side.SELL (10 ^ 9) SizeUnit.USD 100
      TAKER_FEE_RATE).price = 0 := by
    simp only [execute_market_order, calc_exec_price, convert_size, calc_slippage,
      apply_slippage, calc_fee, eq_self_iff_true, if_true]
    rw [if_neg (by intro hc; exact Side.noConfusion hc)]
    norm_num
  intro hcontra
  rw [hzero, mul_zero] at hcontra
  norm_num at hcontra

/-! ## Claim C8 -/

/-- Half-away-from-zero rounding, the mode the spec claims. -/
def roundHalfAwayFromZero (q : ℚ) : ℤ :=
  if 0 ≤ q then ⌊q + 1 / 2⌋ else -⌊-q + 1 / 2⌋

/-- Half-to-even rounding written spec-side, independently of
`pyRound`: round to the nearest integer via `⌊q + 1/2⌋` and pull an
exact tie back by one when that lands on an odd integer. -/
def roundHalfEvenSpec (q : ℚ) : ℤ :=
  let n := ⌊q + 1 / 2⌋
  if q + 1 / 2 = (n : ℚ) ∧ ¬ (2 ∣ n) then n - 1 else n

/-- The spec-side statement of tick/step rounding with half-to-even
mode and the final rounding of the product to ten decimal places. -/
def round_to_spec (x step : ℚ) : ℚ :=
  if step ≤ 0 then x
  else pyRound10 ((roundHalfEvenSpec (x / step) : ℚ) * step)

theorem pyRound_eq_roundHalfEvenSpec (q : ℚ) : pyRound q = roundHalfEvenSpec q := by
  unfold pyRound roundHalfEvenSpec
  have hfl : (⌊q⌋ : ℚ) ≤ q := Int.floor_le q
  have hfu : q < ⌊q⌋ + 1 := Int.lt_floor_add_one q
  rcases lt_trichotomy (q - (⌊q⌋ : ℚ)) (1 / 2) with h | h | h
  · have h1 : ⌊q + 1 / 2⌋ = ⌊q⌋ := by
      rw [Int.floor_eq_iff]
      constructor
      · linarith
      · linarith
    rw [if_pos h, h1, if_neg]
    intro hc
    have := hc.1
    linarith
  · have h1 : ⌊q + 1 / 2⌋ = ⌊q⌋ + 1 := by
      rw [Int.floor_eq_iff]
      constructor
      · push_cast
        linarith
      · push_cast
        linarith
    have htie : q + 1 / 2 = ((⌊q⌋ + 1 : ℤ) : ℚ) := by
      push_cast
      linarith
    rw [if_neg (by linarith), if_neg (by linarith), h1]
    by_cases hpar : ⌊q⌋ % 2 = 0
    · rw [if_pos hpar, if_pos ⟨htie, by omega⟩]
      omega
    · rw [if_neg hpar, if_neg]
      intro hc
      exact hc.2 (by omega)
  · have h1 : ⌊q + 1 / 2⌋ = ⌊q⌋ + 1 := by
      rw [Int.floor_eq_iff]
      constructor
      · push_cast
        linarith
      · push_cast
        linarith
    rw [if_neg (by linarith), if_pos h, h1, if_neg]
    intro hc
    have := hc.1
    push_cast at this
    linarith

/-- C8 (amended): both rounding helpers compute
`round10(round_half_even(x/step) · step)` when `step > 0` — Python 3
`round` rounds half to even, not half away from zero — and pass the
input through unchanged when `step ≤ 0`; `round10` is the final
rounding of the product to ten decimal places present in the code. -/
theorem round_to_matches_half_even_spec (x step : ℚ) :
    round_to_tick x step = round_to_spec x step ∧
    round_to_step x step = round_to_spec x step := by
  unfold round_to_tick round_to_step round_to_spec
  rw [pyRound_eq_roundHalfEvenSpec]
  exact ⟨rfl, rfl⟩

/-- Counterexample for C8 as stated: at `x = 1/4`, `step = 1/10` the
quotient is exactly `5/2`; the code rounds it to `2` (half to even),
giving `1/5`, while half-away-from-zero would give `3 · (1/10) = 3/10`. -/
theorem round_to_tick_not_half_away_counterexample :
    round_to_tick (1 / 4) (1 / 10) ≠
      (roundHalfAwayFromZero ((1 / 4) / (1 / 10)) : ℚ) * (1 / 10) := by
  have h1 : roundHalfAwayFromZero ((1 / 4) / (1 / 10)) = 3 := by
    rw [roundHalfAwayFromZero, if_pos (by norm_num)]
    rw [show (1 / 4 : ℚ) / (1 / 10) + 1 / 2 = ((3 : ℤ) : ℚ) by push_cast; norm_num]
    exact Int.floor_intCast 3
  rw [h1]
  have h2 : round_to_tick (1 / 4) (1 / 10) = 1 / 5 := by
    rw [round_to_tick, if_neg (by norm_num)]
    have hp : pyRound ((1 / 4) / (1 / 10)) = 2 := by
      rw [pyRound]
      have hf : ⌊(1 / 4 : ℚ) / (1 / 10)⌋ = 2 := by
        rw [show (1 / 4 : ℚ) / (1 / 10) = 5 / 2 by norm_num]
        rw [Int.floor_eq_iff]
        norm_num
      simp only [hf]
      norm_num
    rw [hp]
    rw [show ((2 : ℤ) : ℚ) * (1 / 10) = 1 / 5 by push_cast; ring]
    rw [pyRound10]
    have hp2 : pyRound ((1 / 5) * 10 ^ 10) = 2 * 10 ^ 9 := by
      rw [show (1 / 5 : ℚ) * 10 ^ 10 = ((2 * 10 ^ 9 : ℤ) : ℚ) by push_cast; norm_num]
      rw [pyRound]
      simp only [Int.floor_intCast]
      norm_num
    rw [hp2]
    push_cast
    norm_num
  rw [h2]
  push_cast
  norm_num

/-! ## Claim C6: snapshot serialization (persistence.py)

Modelled from the spec: `StateStore.save_snapshot` serializes the
account with pydantic's `model_dump_json` and `load_snapshot` parses it
back with `model_validate_json`; the pydantic field declarations and the
`open_orders` field are absent from the copy of `models.py` in the
source, so the serialized form is modelled as a JSON-like tree following
spec sections 3 and 6 (enums as their string values, numbers exactly). -/

inductive JValue where
  | jstr (s : String)
  | jnum (q : ℚ)
  | jint (n : ℤ)
  | jbool (b : Bool)
  | jobj (fields : List (String × JValue))

def sideToJson : Side → String
  | Side.BUY => "BUY"
  | Side.SELL => "SELL"

def sideFromJson (s : String) : Option Side :=
  if s = "BUY" then some Side.BUY
  else if s = "SELL" then some Side.SELL
  else none

def orderTypeToJson : OrderType → String
  | OrderType.MARKET => "MARKET"
  | OrderType.LIMIT => "LIMIT"

def orderTypeFromJson (s : String) : Option OrderType :=
  if s = "MARKET" then some OrderType.MARKET
  else if s = "LIMIT" then some OrderType.LIMIT
  else none

def serPosition (p : Position) : JValue :=
  JValue.jobj [("symbol", JValue.jstr p.symbol), ("side", JValue.jstr (sideToJson p.side)),
    ("size", JValue.jnum p.size), ("entry_price", JValue.jnum p.entry_price),
    ("leverage", JValue.jint p.leverage), ("mmr", JValue.jnum p.mmr)]

def deserPosition : JValue → Option Position
  | JValue.jobj [("symbol", JValue.jstr sym), ("side", JValue.jstr sd),
      ("size", JValue.jnum size), ("entry_price", JValue.jnum ep),
      ("leverage", JValue.jint lev), ("mmr", JValue.jnum mmr)] =>
    (sideFromJson sd).map (fun s =>
      { symbol := sym, side := s, size := size, entry_price := ep,
        leverage := lev, mmr := mmr })
  | _ => none

def serOpenOrder (o : OpenOrder) : JValue :=
  JValue.jobj [("order_id", JValue.jstr o.order_id), ("symbol", JValue.jstr o.symbol),
    ("side", JValue.jstr (sideToJson o.side)),
    ("order_type", JValue.jstr (orderTypeToJson o.order_type)),
    ("size", JValue.jnum o.size), ("limit_price", JValue.jnum o.limit_price),
    ("leverage", JValue.jint o.leverage), ("reduce_only", JValue.jbool o.reduce_only),
    ("client_id", JValue.jstr o.client_id), ("timestamp", JValue.jint o.timestamp)]

def deserOpenOrder : JValue → Option OpenOrder
  | JValue.jobj [("order_id", JValue.jstr oid), ("symbol", JValue.jstr sym),
      ("side", JValue.jstr sd), ("order_type", JValue.jstr ot),
      ("size", JValue.jnum size), ("limit_price", JValue.jnum lp),
      ("leverage", JValue.jint lev), ("reduce_only", JValue.jbool ro),
      ("client_id", JValue.jstr cid), ("timestamp", JValue.jint ts)] =>
    match sideFromJson sd, orderTypeFromJson ot with
    | some s, some t =>
      some { order_id := oid, symbol := sym, side := s, order_type := t,
             size := size, limit_price := lp, leverage := lev,
             reduce_only := ro, client_id := cid, timestamp := ts }
    | _, _ => none
  | _ => none

def serEntries {α : Type} (f : α → JValue) (l : List (String × α)) :
    List (String × JValue) :=
  l.map (fun e => (e.1, f e.2))

def deserEntries {α : Type} (f : JValue → Option α) :
    List (String × JValue) → Option (List (String × α))
  | [] => some []
  | (k, v) :: t =>
    match f v, deserEntries f t with
    | some a, some r => some ((k, a) :: r)
    | _, _ => none

/-- `AccountState.model_dump_json`, as a JSON tree. -/
def serialize_state (st : AccountState) : JValue :=
  JValue.jobj [("balance", JValue.jnum st.balance),
    ("positions", JValue.jobj (serEntries serPosition st.positions)),
    ("open_orders", JValue.jobj (serEntries serOpenOrder st.open_orders))]

/-- `AccountState.model_validate_json`, over the JSON tree. -/
def deserialize_state : JValue → Option AccountState
  | JValue.jobj [("balance", JValue.jnum bal),
      ("positions", JValue.jobj ps), ("open_orders", JValue.jobj oo)] =>
    match deserEntries deserPosition ps, deserEntries deserOpenOrder oo with
    | some l1, some l2 =>
      some { balance := bal, positions := l1, open_orders := l2 }
    | _, _ => none
  | _ => none

theorem deserPosition_serPosition (p : Position) :
    deserPosition (serPosition p) = some p := by
  rcases p with ⟨sym, side, size, ep, lev, mmr⟩
  cases side <;> rfl

theorem deserOpenOrder_serOpenOrder (o : OpenOrder) :
    deserOpenOrder (serOpenOrder o) = some o := by
  rcases o with ⟨oid, sym, side, ot, size, lp, lev, ro, cid, ts⟩
  cases side <;> cases ot <;> rfl

theorem deserEntries_serEntries {α : Type} (f : α → JValue) (g : JValue → Option α)
    (hfg : ∀ a, g (f a) = some a) (l : List (String × α)) :
    deserEntries g (serEntries f l) = some l := by
  induction l with
  | nil => rfl
  | cons e t ih =>
    simp only [serEntries, List.map_cons, deserEntries, hfg e.2]
    rw [show List.map (fun e => (e.1, f e.2)) t = serEntries f t from rfl, ih]

/-- C6: deserializing the serialized snapshot restores the account
state exactly — balance, the positions map, and the open-orders map —
for every state (in particular every reachable one). -/
theorem snapshot_round_trip (st : AccountState) :
    deserialize_state (serialize_state st) = some st := by
  rcases st with ⟨bal, ps, oo⟩
  simp only [serialize_state, deserialize_state,
    deserEntries_serEntries serPosition deserPosition deserPosition_serPosition ps,
    deserEntries_serEntries serOpenOrder deserOpenOrder deserOpenOrder_serOpenOrder oo]

/-! ## Limit-fill scan lemmas -/

/-- Unfolding equation: the scanned order is for another symbol. -/
theorem clfScan_cons_skip {mid : ℚ} {symbol : String} {bal : ℚ}
    {ps : List (String × Position)} {e : String × OpenOrder}
    {rest : List (String × OpenOrder)} (hs : e.2.symbol ≠ symbol) :
    clfScan mid symbol bal ps (e :: rest) = clfScan mid symbol bal ps rest := by
  rw [clfScan, if_pos hs]

/-- Unfolding equation: the scanned order does not cross. -/
theorem clfScan_cons_nofill {mid : ℚ} {symbol : String} {bal : ℚ}
    {ps : List (String × Position)} {e : String × OpenOrder}
    {rest : List (String × OpenOrder)} (hs : ¬ e.2.symbol ≠ symbol)
    (hf : check_limit_fill e.2 mid = none) :
    clfScan mid symbol bal ps (e :: rest) = clfScan mid symbol bal ps rest := by
  rw [clfScan, if_neg hs, hf]

/-- Unfolding equation: the scanned order crosses and its fill is
applied successfully. -/
theorem clfScan_cons_ok {mid : ℚ} {symbol : String} {bal : ℚ}
    {ps : List (String × Position)} {e : String × OpenOrder}
    {rest : List (String × OpenOrder)} {fill : Fill}
    {r : ℚ × List (String × Position)} (hs : ¬ e.2.symbol ≠ symbol)
    (hf : check_limit_fill e.2 mid = some fill)
    (ha : applyFillCore bal ps fill e.2.leverage = Except.ok r) :
    clfScan mid symbol bal ps (e :: rest) =
      ((clfScan mid symbol r.1 r.2 rest).1, (clfScan mid symbol r.1 r.2 rest).2.1,
        e.1 :: (clfScan mid symbol r.1 r.2 rest).2.2) := by
  rw [clfScan, if_neg hs, hf]
  dsimp only
  rw [ha]

/-- Unfolding equation: the scanned order crosses but applying its fill
raises a leverage conflict, silently dropped. -/
theorem clfScan_cons_err {mid : ℚ} {symbol : String} {bal : ℚ}
    {ps : List (String × Position)} {e : String × OpenOrder}
    {rest : List (String × OpenOrder)} {fill : Fill} {msg : String}
    (hs : ¬ e.2.symbol ≠ symbol) (hf : check_limit_fill e.2 mid = some fill)
    (ha : applyFillCore bal ps fill e.2.leverage = Except.error msg) :
    clfScan mid symbol bal ps (e :: rest) =
      ((clfScan mid symbol bal ps rest).1, (clfScan mid symbol bal ps rest).2.1,
        e.1 :: (clfScan mid symbol bal ps rest).2.2) := by
  rw [clfScan, if_neg hs, hf]
  dsimp only
  rw [ha]

/-- If the scan fired no order, it also changed nothing. -/
theorem clfScan_rem_nil (mid : ℚ) (symbol : String) :
    ∀ (book : List (String × OpenOrder)) (bal : ℚ) (ps : List (String × Position)),
      (clfScan mid symbol bal ps book).2.2 = [] →
      (clfScan mid symbol bal ps book).1 = bal ∧
        (clfScan mid symbol bal ps book).2.1 = ps := by
  intro book
  induction book with
  | nil => intro bal ps _; exact ⟨rfl, rfl⟩
  | cons e rest ih =>
    intro bal ps h
    by_cases hs : e.2.symbol ≠ symbol
    · rw [clfScan_cons_skip hs] at h ⊢
      exact ih bal ps h
    · cases hf : check_limit_fill e.2 mid with
      | none =>
        rw [clfScan_cons_nofill hs hf] at h ⊢
        exact ih bal ps h
      | some fill =>
        cases ha : applyFillCore bal ps fill e.2.leverage with
        | ok r =>
          rw [clfScan_cons_ok hs hf ha] at h
          exact absurd h (by simp)
        | error msg =>
          rw [clfScan_cons_err hs hf ha] at h
          exact absurd h (by simp)

/-- The scan keeps the positions map key-consistent. -/
theorem clfScan_keyConsistent (mid : ℚ) (symbol : String) :
    ∀ (book : List (String × OpenOrder)) (bal : ℚ) (ps : List (String × Position)),
      KeyConsistent ps → KeyConsistent (clfScan mid symbol bal ps book).2.1 := by
  intro book
  induction book with
  | nil => intro bal ps h; exact h
  | cons e rest ih =>
    intro bal ps h
    by_cases hs : e.2.symbol ≠ symbol
    · rw [clfScan_cons_skip hs]
      exact ih bal ps h
    · cases hf : check_limit_fill e.2 mid with
      | none =>
        rw [clfScan_cons_nofill hs hf]
        exact ih bal ps h
      | some fill =>
        cases ha : applyFillCore bal ps fill e.2.leverage with
        | ok r =>
          rw [clfScan_cons_ok hs hf ha]
          exact ih r.1 r.2 (applyFillCore_keyConsistent h ha)
        | error msg =>
          rw [clfScan_cons_err hs hf ha]
          exact ih bal ps h

/-! ## Claim C3 -/

/-- C3 (amended): a price tick runs the liquidation loop only when it
fired at least one resting limit order.  After `on_price_update`,
either the account state (balance, positions, open orders) is exactly
what it was before the tick — in particular a bare price tick leaves an
undermargined account untouched — or some order fired and the
post-state satisfies the liquidation invariant at the updated marks:
no positions remain or equity is at least the total maintenance
margin. -/
theorem price_update_unchanged_or_solvent (e : Engine) (symbol : String) (price : ℚ)
    (hkc : KeyConsistent e.state.positions) :
    (on_price_update e symbol price).state = e.state ∨
    ((on_price_update e symbol price).state.positions = [] ∨
      totalMM (on_price_update e symbol price).prices
          (on_price_update e symbol price).state.positions ≤
        (on_price_update e symbol price).state.balance +
          totalUpnl (on_price_update e symbol price).prices
            (on_price_update e symbol price).state.positions) := by
  simp only [on_price_update, check_limit_fills, lookupA_insertA_self]
  cases hrem : (clfScan price symbol e.state.balance e.state.positions
      e.state.open_orders).2.2 with
  | nil =>
    left
    obtain ⟨hb, hp⟩ := clfScan_rem_nil price symbol e.state.open_orders
      e.state.balance e.state.positions hrem
    simp only [hrem, List.isEmpty_nil, if_true, List.foldl_nil, hb, hp]
  | cons a l =>
    right
    simp only [hrem, List.isEmpty_cons, if_false, engineCheckLiquidations]
    exact liqLoop_post _ _ _ _
      (clfScan_keyConsistent price symbol e.state.open_orders
        e.state.balance e.state.positions hkc) le_rfl

def tickPosition : Position :=
  { symbol := "BTC", side := Side.BUY, size := 1, entry_price := 100,
    leverage := 10, mmr := 1 / 20 }

/-- An account with one long position, a thin balance and no resting
orders. -/
def tickEngine : Engine :=
  { state := { balance := 1, positions := [("BTC", tickPosition)], open_orders := [] },
    prices := [("BTC", 100)], nextId := 0 }

/-- Counterexample for C3 as stated: after the price of BTC drops from
100 to 50, `on_price_update` fires no resting order, so the liquidation
loop does not run: the position survives while equity (1 − 50 = −49) is
far below the maintenance margin (2.5). -/
theorem price_tick_alone_skips_liquidation :
    ¬ ((on_price_update tickEngine "BTC" 50).state.positions = [] ∨
       totalMM (on_price_update tickEngine "BTC" 50).prices
           (on_price_update tickEngine "BTC" 50).state.positions ≤
         (on_price_update tickEngine "BTC" 50).state.balance +
           totalUpnl (on_price_update tickEngine "BTC" 50).prices
             (on_price_update tickEngine "BTC" 50).state.positions) := by
  have hev : on_price_update tickEngine "BTC" 50 =
      { state := tickEngine.state, prices := [("BTC", 50)], nextId := 0 } := by
    norm_num [on_price_update, check_limit_fills, clfScan, insertA, lookupA, tickEngine]
  rw [hev]
  norm_num [totalMM, totalUpnl, posUpnl, markOf, calc_maintenance_margin, sideSign,
    tickEngine, tickPosition, lookupA]

/-- Witness for C3 (amended) at the same concrete account. -/
theorem price_update_unchanged_or_solvent_witness :
    KeyConsistent tickEngine.state.positions ∧
    ((on_price_update tickEngine "BTC" 50).state = tickEngine.state ∨
    ((on_price_update tickEngine "BTC" 50).state.positions = [] ∨
      totalMM (on_price_update tickEngine "BTC" 50).prices
          (on_price_update tickEngine "BTC" 50).state.positions ≤
        (on_price_update tickEngine "BTC" 50).state.balance +
          totalUpnl (on_price_update tickEngine "BTC" 50).prices
            (on_price_update tickEngine "BTC" 50).state.positions)) :=
  ⟨by decide, price_update_unchanged_or_solvent tickEngine "BTC" 50 (by decide)⟩

/-! ## Claim C4: determinism machinery

`uuid.uuid4()` is fresh randomness: two runs of the same Python process
draw different order ids.  The id supply is the `gen` parameter, so the
claim "two runs produce identical states including order ids" becomes a
statement over two arbitrary injective supplies; what actually holds is
equality of everything except the generated order ids. -/

/-- The economically relevant fields of a fill (everything except the
order id). -/
def fillEcon (f : Fill) : String × Side × ℚ × ℚ × ℚ :=
  (f.symbol, f.side, f.size, f.price, f.fee)

/-- An open-order book entry with its key and `order_id` erased. -/
structure EconOrder where
  symbol : String
  side : Side
  order_type : OrderType
  size : ℚ
  limit_price : ℚ
  leverage : ℤ
  reduce_only : Bool
  client_id : String
  timestamp : ℤ
deriving DecidableEq, Repr

def stripOrder (e : String × OpenOrder) : EconOrder :=
  { symbol := e.2.symbol, side := e.2.side, order_type := e.2.order_type,
    size := e.2.size, limit_price := e.2.limit_price, leverage := e.2.leverage,
    reduce_only := e.2.reduce_only, client_id := e.2.client_id,
    timestamp := e.2.timestamp }

/-- An event result with generated order ids erased. -/
inductive EconResult where
  | priceAck
  | filled (fe : String × Side × ℚ × ℚ × ℚ)
  | resting
  | rejected (reason : String)
  | cancelled
  | notFound
deriving DecidableEq, Repr

def resultEcon : EventResult → EconResult
  | EventResult.priceAck => EconResult.priceAck
  | EventResult.orderResult (OrderResult.filled f _) => EconResult.filled (fillEcon f)
  | EventResult.orderResult (OrderResult.resting _) => EconResult.resting
  | EventResult.orderResult (OrderResult.rejected r) => EconResult.rejected r
  | EventResult.cancelResult (CancelResult.cancelled _) => EconResult.cancelled
  | EventResult.cancelResult CancelResult.not_found => EconResult.notFound

/-- Two engine states agree everywhere except possibly in the
generated order-id strings. -/
structure EngRel (e1 e2 : Engine) : Prop where
  bal : e1.state.balance = e2.state.balance
  pos : e1.state.positions = e2.state.positions
  prices : e1.prices = e2.prices
  nid : e1.nextId = e2.nextId
  book : e1.state.open_orders.map stripOrder = e2.state.open_orders.map stripOrder

theorem EngRel.refl (e : Engine) : EngRel e e :=
  ⟨rfl, rfl, rfl, rfl, rfl⟩

/-- The open-order book is well formed with respect to the id supply:
keys are pairwise distinct and no id the supply will still produce is
already a key (uuid4 collisions are assumed away, per spec
invariant 5). -/
def GoodBook (gen : ℕ → String) (e : Engine) : Prop :=
  NodupKeys e.state.open_orders ∧
    ∀ n, e.nextId ≤ n → gen n ∉ keysA e.state.open_orders

def isCancel : Event → Bool
  | Event.cancel _ => true
  | _ => false

/-- The event sequence contains no cancel request (a cancel names an
order id, and whether it hits depends on which ids were drawn). -/
def noCancel (evs : List Event) : Prop :=
  ∀ ev ∈ evs, isCancel ev = false

instance : DecidablePred noCancel := fun evs =>
  inferInstanceAs (Decidable (∀ ev ∈ evs, isCancel ev = false))

/-- `apply_fill_to_position` never reads the fill's order id. -/
theorem applyFillCore_fillEcon {bal : ℚ} {ps : List (String × Position)} {lev : ℤ}
    {f1 f2 : Fill} (h : fillEcon f1 = fillEcon f2) :
    applyFillCore bal ps f1 lev = applyFillCore bal ps f2 lev := by
  rcases f1 with ⟨s1, sd1, sz1, p1, fee1, o1⟩
  rcases f2 with ⟨s2, sd2, sz2, p2, fee2, o2⟩
  simp only [fillEcon, Prod.mk.injEq] at h
  obtain ⟨h1, h2, h3, h4, h5⟩ := h
  subst h1; subst h2; subst h3; subst h4; subst h5
  rfl

/-- `check_limit_fill` depends only on the stripped fields, except that
the produced fill carries the order id — so the results agree up to
`fillEcon`. -/
theorem check_limit_fill_econ {o1 o2 : OpenOrder} (mid : ℚ)
    (hsym : o1.symbol = o2.symbol) (hside : o1.side = o2.side)
    (hsize : o1.size = o2.size) (hlp : o1.limit_price = o2.limit_price) :
    (check_limit_fill o1 mid).map fillEcon = (check_limit_fill o2 mid).map fillEcon := by
  unfold check_limit_fill
  rw [hsym, hside, hsize, hlp]
  dsimp only
  split
  · simp [fillEcon]
  · rfl

/-- Whether a book entry fires on the scan of `_check_limit_fills`. -/
def firedEntry (mid : ℚ) (symbol : String) (e : String × OpenOrder) : Bool :=
  decide (e.2.symbol = symbol) && (check_limit_fill e.2 mid).isSome

theorem firedEntry_congr {mid : ℚ} {symbol : String} {e1 e2 : String × OpenOrder}
    (h : stripOrder e1 = stripOrder e2) :
    firedEntry mid symbol e1 = firedEntry mid symbol e2 := by
  have hf := congrArg EconOrder.symbol h
  have hs := congrArg EconOrder.side h
  have hz := congrArg EconOrder.size h
  have hl := congrArg EconOrder.limit_price h
  simp only [stripOrder] at hf hs hz hl
  have hmap := check_limit_fill_econ mid hf hs hz hl
  have hsome : (check_limit_fill e1.2 mid).isSome = (check_limit_fill e2.2 mid).isSome := by
    cases ha : check_limit_fill e1.2 mid <;> cases hb : check_limit_fill e2.2 mid <;>
      rw [ha, hb] at hmap <;> simp_all
  rw [firedEntry, firedEntry, hf, hsome]

theorem eraseA_sublist {α : Type} (l : List (String × α)) (k : String) :
    List.Sublist (eraseA l k) l := by
  induction l with
  | nil => simp [eraseA]
  | cons e t ih =>
    rcases e with ⟨k0, v0⟩
    by_cases hk : k0 = k
    · simp only [eraseA, if_pos hk]
      exact List.sublist_cons_self _ _
    · simp only [eraseA, if_neg hk]
      exact List.Sublist.cons₂ _ ih

theorem foldl_eraseA_sublist {α : Type} :
    ∀ (rem : List String) (book : List (String × α)),
      List.Sublist (rem.foldl (fun b oid => eraseA b oid) book) book := by
  intro rem
  induction rem with
  | nil => intro book; exact List.Sublist.refl book
  | cons r rest ih =>
    intro book
    exact (ih (eraseA book r)).trans (eraseA_sublist book r)

/-- The limit-fill scan is driven entirely by the stripped book: with
equal balances and positions and strip-equal books, it produces the
same balance and positions and fires the same number of orders. -/
theorem clfScan_econ (mid : ℚ) (symbol : String) :
    ∀ (b1 b2 : List (String × OpenOrder)) (bal : ℚ) (ps : List (String × Position)),
      b1.map stripOrder = b2.map stripOrder →
      (clfScan mid symbol bal ps b1).1 = (clfScan mid symbol bal ps b2).1 ∧
      (clfScan mid symbol bal ps b1).2.1 = (clfScan mid symbol bal ps b2).2.1 ∧
      (clfScan mid symbol bal ps b1).2.2.length = (clfScan mid symbol bal ps b2).2.2.length := by
  intro b1
  induction b1 with
  | nil =>
    intro b2 bal ps h
    cases b2 with
    | nil => exact ⟨rfl, rfl, rfl⟩
    | cons e t => simp at h
  | cons e1 t1 ih =>
    intro b2 bal ps h
    cases b2 with
    | nil => simp at h
    | cons e2 t2 =>
      simp only [List.map_cons, List.cons.injEq] at h
      obtain ⟨hh, ht⟩ := h
      have hsym : e1.2.symbol = e2.2.symbol := congrArg EconOrder.symbol hh
      have hside : e1.2.side = e2.2.side := congrArg EconOrder.side hh
      have hsize : e1.2.size = e2.2.size := congrArg EconOrder.size hh
      have hlp : e1.2.limit_price = e2.2.limit_price := congrArg EconOrder.limit_price hh
      have hlev : e1.2.leverage = e2.2.leverage := congrArg EconOrder.leverage hh
      by_cases hs : e1.2.symbol ≠ symbol
      · have hs2 : e2.2.symbol ≠ symbol := by rw [← hsym]; exact hs
        rw [clfScan_cons_skip hs, clfScan_cons_skip hs2]
        exact ih t2 bal ps ht
      · have hs2 : ¬ e2.2.symbol ≠ symbol := by rw [← hsym]; exact hs
        have hmap := check_limit_fill_econ mid hsym hside hsize hlp
        cases hf1 : check_limit_fill e1.2 mid with
        | none =>
          cases hf2 : check_limit_fill e2.2 mid with
          | none =>
            rw [clfScan_cons_nofill hs hf1, clfScan_cons_nofill hs2 hf2]
            exact ih t2 bal ps ht
          | some f2 =>
            rw [hf1, hf2] at hmap
            simp at hmap
        | some f1 =>
          cases hf2 : check_limit_fill e2.2 mid with
          | none =>
            rw [hf1, hf2] at hmap
            simp at hmap
          | some f2 =>
            rw [hf1, hf2] at hmap
            simp only [Option.map_some'] at hmap
            have hfe : fillEcon f1 = fillEcon f2 := by injection hmap
            have happ : applyFillCore bal ps f1 e1.2.leverage
                = applyFillCore bal ps f2 e2.2.leverage := by
              rw [hlev]
              exact applyFillCore_fillEcon hfe
            cases ha1 : applyFillCore bal ps f1 e1.2.leverage with
            | ok r =>
              have ha2 : applyFillCore bal ps f2 e2.2.leverage = Except.ok r := by
                rw [← happ]
                exact ha1
              rw [clfScan_cons_ok hs hf1 ha1, clfScan_cons_ok hs2 hf2 ha2]
              obtain ⟨hx, hy, hz⟩ := ih t2 r.1 r.2 ht
              exact ⟨hx, hy, by simp [hz]⟩
            | error msg =>
              have ha2 : applyFillCore bal ps f2 e2.2.leverage = Except.error msg := by
                rw [← happ]
                exact ha1
              rw [clfScan_cons_err hs hf1 ha1, clfScan_cons_err hs2 hf2 ha2]
              obtain ⟨hx, hy, hz⟩ := ih t2 bal ps ht
              exact ⟨hx, hy, by simp [hz]⟩

/-- The list of removed order ids is exactly the keys of the fired
entries, independent of the threaded balance and positions. -/
theorem clfScan_rem_eq_filter (mid : ℚ) (symbol : String) :
    ∀ (book : List (String × OpenOrder)) (bal : ℚ) (ps : List (String × Position)),
      (clfScan mid symbol bal ps book).2.2 =
        (book.filter (firedEntry mid symbol)).map Prod.fst := by
  intro book
  induction book with
  | nil => intro bal ps; rfl
  | cons e rest ih =>
    intro bal ps
    by_cases hs : e.2.symbol ≠ symbol
    · have hfe : firedEntry mid symbol e = false := by
        simp [firedEntry, hs]
      rw [clfScan_cons_skip hs]
      simp only [List.filter_cons, hfe, Bool.false_eq_true, if_false]
      exact ih bal ps
    · cases hf : check_limit_fill e.2 mid with
      | none =>
        have hfe : firedEntry mid symbol e = false := by
          simp [firedEntry, hf]
        rw [clfScan_cons_nofill hs hf]
        simp only [List.filter_cons, hfe, Bool.false_eq_true, if_false]
        exact ih bal ps
      | some fill =>
        have hfe : firedEntry mid symbol e = true := by
          simp [firedEntry, hf, not_not.mp hs]
        cases ha : applyFillCore bal ps fill e.2.leverage with
        | ok r =>
          rw [clfScan_cons_ok hs hf ha]
          simp only [List.filter_cons, hfe, if_true, List.map_cons]
          rw [ih r.1 r.2]
        | error msg =>
          rw [clfScan_cons_err hs hf ha]
          simp only [List.filter_cons, hfe, if_true, List.map_cons]
          rw [ih bal ps]

theorem foldl_eraseA_cons_ne {α : Type} :
    ∀ (rem : List String) (e : String × α) (t : List (String × α)),
      (∀ oid ∈ rem, oid ≠ e.1) →
      rem.foldl (fun b oid => eraseA b oid) (e :: t) =
        e :: rem.foldl (fun b oid => eraseA b oid) t := by
  intro rem
  induction rem with
  | nil => intro e t _; rfl
  | cons r rest ih =>
    intro e t h
    have hr : r ≠ e.1 := h r (List.mem_cons_self r rest)
    simp only [List.foldl_cons]
    rw [show eraseA (e :: t) r = e :: eraseA t r from by
      rcases e with ⟨k, v⟩
      exact if_neg (fun hkr : k = r => hr hkr.symm)]
    exact ih e (eraseA t r) (fun oid ho => h oid (List.mem_cons_of_mem _ ho))

/-- Removing, in order, the keys of the entries satisfying `p` from a
nodup-keyed book is the same as filtering them out. -/
theorem foldl_eraseA_filter {α : Type} (p : String × α → Bool) :
    ∀ (book : List (String × α)), NodupKeys book →
      ((book.filter p).map Prod.fst).foldl (fun b oid => eraseA b oid) book =
        book.filter (fun e => ! p e) := by
  intro book
  induction book with
  | nil => intro _; rfl
  | cons e t ih =>
    intro h
    obtain ⟨he, ht⟩ : e.1 ∉ keysA t ∧ NodupKeys t := by
      simpa [NodupKeys, keysA] using h
    cases hp : p e with
    | true =>
      simp only [List.filter_cons, hp, if_true, List.map_cons, List.foldl_cons,
        Bool.not_true, Bool.false_eq_true, if_false]
      rw [show eraseA (e :: t) e.1 = t from by
        rcases e with ⟨k, v⟩
        simp [eraseA]]
      exact ih ht
    | false =>
      have hmem : ∀ oid ∈ (List.filter p t).map Prod.fst, oid ≠ e.1 := by
        intro oid ho
        obtain ⟨x, hx, hfx⟩ := List.mem_map.mp ho
        have hk : oid ∈ keysA t := hfx ▸ mem_keysA_of_mem (List.mem_of_mem_filter hx)
        intro hcontra
        rw [hcontra] at hk
        exact he hk
      simp only [List.filter_cons, hp, Bool.false_eq_true, if_false, Bool.not_false,
        if_true]
      rw [foldl_eraseA_cons_ne _ e t hmem, ih ht]

/-- Filtering out the fired entries commutes with stripping. -/
theorem filter_fired_map_strip (mid : ℚ) (symbol : String) :
    ∀ (b1 b2 : List (String × OpenOrder)), b1.map stripOrder = b2.map stripOrder →
      (b1.filter (fun e => ! firedEntry mid symbol e)).map stripOrder =
        (b2.filter (fun e => ! firedEntry mid symbol e)).map stripOrder := by
  intro b1
  induction b1 with
  | nil =>
    intro b2 h
    cases b2 with
    | nil => rfl
    | cons e t => simp at h
  | cons e1 t1 ih =>
    intro b2 h
    cases b2 with
    | nil => simp at h
    | cons e2 t2 =>
      simp only [List.map_cons, List.cons.injEq] at h
      obtain ⟨hh, ht⟩ := h
      have hfc := @firedEntry_congr mid symbol _ _ hh
      simp only [List.filter_cons, hfc]
      cases hf : firedEntry mid symbol e2 with
      | true =>
        simp only [Bool.not_true, Bool.false_eq_true, if_false]
        exact ih t2 ht
      | false =>
        simp only [Bool.not_false, if_true, List.map_cons, hh]
        rw [ih t2 ht]

/-- The liquidation loop touches only balance and positions. -/
theorem engineCheckLiquidations_rel {e1 e2 : Engine} (h : EngRel e1 e2) :
    EngRel (engineCheckLiquidations e1).1 (engineCheckLiquidations e2).1 := by
  obtain ⟨hb, hp, hpr, hn, hbk⟩ := h
  refine ⟨?_, ?_, hpr, hn, hbk⟩
  · show (check_liquidations e1.prices e1.state.balance e1.state.positions).1
      = (check_liquidations e2.prices e2.state.balance e2.state.positions).1
    rw [hb, hp, hpr]
  · show (check_liquidations e1.prices e1.state.balance e1.state.positions).2.1
      = (check_liquidations e2.prices e2.state.balance e2.state.positions).2.1
    rw [hb, hp, hpr]

/-- The engine after the limit-fill scan of a price tick, before any
liquidation: fired entries filtered out of the book, the scanned
balance and positions installed, the new mid stored. -/
def priceStepEngine (e : Engine) (sym : String) (v : ℚ) : Engine where
  state :=
    { balance := (clfScan v sym e.state.balance e.state.positions e.state.open_orders).1,
      positions := (clfScan v sym e.state.balance e.state.positions e.state.open_orders).2.1,
      open_orders := e.state.open_orders.filter (fun en => ! firedEntry v sym en) }
  prices := insertA e.prices sym v
  nextId := e.nextId

/-- Characterization of `on_price_update` for a well-formed book: the
fired entries are filtered out of the book, the scan's balance and
positions are installed, and the liquidation loop runs exactly when
some entry fired. -/
theorem on_price_update_eq (e : Engine) (sym : String) (v : ℚ)
    (hnd : NodupKeys e.state.open_orders) :
    on_price_update e sym v =
      (if ((e.state.open_orders.filter (firedEntry v sym)).map Prod.fst).isEmpty then
        priceStepEngine e sym v
      else (engineCheckLiquidations (priceStepEngine e sym v)).1) := by
  simp only [on_price_update, check_limit_fills, lookupA_insertA_self, priceStepEngine]
  rw [clfScan_rem_eq_filter, foldl_eraseA_filter _ _ hnd]

theorem list_isEmpty_congr {l1 l2 : List String} (h : l1.length = l2.length) :
    l1.isEmpty = l2.isEmpty := by
  cases l1 <;> cases l2 <;> simp_all

theorem on_price_update_rel {e1 e2 : Engine} (hR : EngRel e1 e2)
    (hnd1 : NodupKeys e1.state.open_orders) (hnd2 : NodupKeys e2.state.open_orders)
    (sym : String) (v : ℚ) :
    EngRel (on_price_update e1 sym v) (on_price_update e2 sym v) := by
  obtain ⟨hb, hp, hpr, hn, hbk⟩ := hR
  rw [on_price_update_eq e1 sym v hnd1, on_price_update_eq e2 sym v hnd2]
  have hb2 : clfScan v sym e2.state.balance e2.state.positions e2.state.open_orders
      = clfScan v sym e1.state.balance e1.state.positions e2.state.open_orders := by
    rw [hb, hp]
  obtain ⟨hbal, hpos, hlen⟩ := clfScan_econ v sym e1.state.open_orders
    e2.state.open_orders e1.state.balance e1.state.positions hbk
  have hrel2 : EngRel (priceStepEngine e1 sym v) (priceStepEngine e2 sym v) := by
    refine ⟨?_, ?_, ?_, hn, ?_⟩
    · show (clfScan v sym e1.state.balance e1.state.positions e1.state.open_orders).1
        = (clfScan v sym e2.state.balance e2.state.positions e2.state.open_orders).1
      rw [hb2]
      exact hbal
    · show (clfScan v sym e1.state.balance e1.state.positions e1.state.open_orders).2.1
        = (clfScan v sym e2.state.balance e2.state.positions e2.state.open_orders).2.1
      rw [hb2]
      exact hpos
    · show insertA e1.prices sym v = insertA e2.prices sym v
      rw [hpr]
    · exact filter_fired_map_strip v sym e1.state.open_orders e2.state.open_orders hbk
  have hcond : ((e1.state.open_orders.filter (firedEntry v sym)).map Prod.fst).isEmpty
      = ((e2.state.open_orders.filter (firedEntry v sym)).map Prod.fst).isEmpty := by
    apply list_isEmpty_congr
    rw [← clfScan_rem_eq_filter v sym e1.state.open_orders e1.state.balance
        e1.state.positions,
      ← clfScan_rem_eq_filter v sym e2.state.open_orders e2.state.balance
        e2.state.positions, hb2]
    exact hlen
  rw [hcond]
  by_cases hempty :
      ((e2.state.open_orders.filter (firedEntry v sym)).map Prod.fst).isEmpty = true
  · rw [if_pos hempty, if_pos hempty]
    exact hrel2
  · rw [if_neg hempty, if_neg hempty]
    exact engineCheckLiquidations_rel hrel2

theorem engineExecuteMarket_rel {e1 e2 : Engine} (hR : EngRel e1 e2)
    (intent : OrderIntent) (mid : ℚ) :
    EngRel (engineExecuteMarket e1 intent mid).1 (engineExecuteMarket e2 intent mid).1 ∧
    resultEcon (EventResult.orderResult (engineExecuteMarket e1 intent mid).2) =
      resultEcon (EventResult.orderResult (engineExecuteMarket e2 intent mid).2) := by
  obtain ⟨hb, hp, hpr, hn, hbk⟩ := hR
  unfold engineExecuteMarket
  dsimp only
  rw [← hb, ← hp]
  cases ha : applyFillCore e1.state.balance e1.state.positions
      (execute_market_order intent.symbol intent.side intent.size_value
        intent.size_unit mid) intent.leverage with
  | error msg => exact ⟨⟨hb, hp, hpr, hn, hbk⟩, rfl⟩
  | ok r =>
    refine ⟨engineCheckLiquidations_rel ⟨rfl, rfl, hpr, hn, hbk⟩, rfl⟩

theorem engineHandleLimit_rel (gen1 gen2 : ℕ → String) {e1 e2 : Engine}
    (hR : EngRel e1 e2)
    (hfresh1 : gen1 e1.nextId ∉ keysA e1.state.open_orders)
    (hfresh2 : gen2 e2.nextId ∉ keysA e2.state.open_orders)
    (intent : OrderIntent) (mid : ℚ) :
    EngRel (engineHandleLimit gen1 e1 intent mid).1
      (engineHandleLimit gen2 e2 intent mid).1 ∧
    resultEcon (EventResult.orderResult (engineHandleLimit gen1 e1 intent mid).2) =
      resultEcon (EventResult.orderResult (engineHandleLimit gen2 e2 intent mid).2) := by
  obtain ⟨hb, hp, hpr, hn, hbk⟩ := hR
  rw [← hn] at hfresh2
  unfold engineHandleLimit
  dsimp only
  rw [← hb, ← hp, ← hn]
  set o1 : OpenOrder :=
    { order_id := gen1 e1.nextId, symbol := intent.symbol, side := intent.side,
      order_type := intent.order_type,
      size := convert_size intent.size_value intent.size_unit mid,
      limit_price := intent.limit_price, leverage := intent.leverage,
      reduce_only := intent.reduce_only, client_id := intent.client_id,
      timestamp := intent.timestamp } with ho1
  set o2 : OpenOrder :=
    { order_id := gen2 e1.nextId, symbol := intent.symbol, side := intent.side,
      order_type := intent.order_type,
      size := convert_size intent.size_value intent.size_unit mid,
      limit_price := intent.limit_price, leverage := intent.leverage,
      reduce_only := intent.reduce_only, client_id := intent.client_id,
      timestamp := intent.timestamp } with ho2
  have hmap := @check_limit_fill_econ o1 o2 mid rfl rfl rfl rfl
  cases hf1 : check_limit_fill o1 mid with
  | none =>
    cases hf2 : check_limit_fill o2 mid with
    | none =>
      dsimp only
      refine ⟨⟨rfl, rfl, hpr, rfl, ?_⟩, rfl⟩
      show (insertA e1.state.open_orders (gen1 e1.nextId) o1).map stripOrder
        = (insertA e2.state.open_orders (gen2 e1.nextId) o2).map stripOrder
      rw [insertA_of_not_mem_keys o1 hfresh1, insertA_of_not_mem_keys o2 hfresh2]
      rw [List.map_append, List.map_append, hbk]
      rfl
    | some f2 =>
      rw [hf1, hf2] at hmap
      simp at hmap
  | some f1 =>
    cases hf2 : check_limit_fill o2 mid with
    | none =>
      rw [hf1, hf2] at hmap
      simp at hmap
    | some f2 =>
      rw [hf1, hf2] at hmap
      simp only [Option.map_some'] at hmap
      have hfe : fillEcon f1 = fillEcon f2 := by injection hmap
      have happ : applyFillCore e1.state.balance e1.state.positions f1 intent.leverage
          = applyFillCore e1.state.balance e1.state.positions f2 intent.leverage :=
        applyFillCore_fillEcon hfe
      dsimp only
      cases ha1 : applyFillCore e1.state.balance e1.state.positions f1 intent.leverage with
      | error msg =>
        have ha2 : applyFillCore e1.state.balance e1.state.positions f2 intent.leverage
            = Except.error msg := by
          rw [← happ]
          exact ha1
        rw [ha2]
        dsimp only
        exact ⟨⟨hb, hp, hpr, rfl, hbk⟩, rfl⟩
      | ok r =>
        have ha2 : applyFillCore e1.state.balance e1.state.positions f2 intent.leverage
            = Except.ok r := by
          rw [← happ]
          exact ha1
        rw [ha2]
        dsimp only
        refine ⟨engineCheckLiquidations_rel ⟨rfl, rfl, hpr, rfl, hbk⟩, ?_⟩
        simp [resultEcon, hfe]

theorem dispatchOrder_rel (gen1 gen2 : ℕ → String) {e1 e2 : Engine}
    (hR : EngRel e1 e2)
    (hfresh1 : gen1 e1.nextId ∉ keysA e1.state.open_orders)
    (hfresh2 : gen2 e2.nextId ∉ keysA e2.state.open_orders)
    (intent : OrderIntent) (mid : ℚ) :
    EngRel (dispatchOrder gen1 e1 intent mid).1 (dispatchOrder gen2 e2 intent mid).1 ∧
    resultEcon (EventResult.orderResult (dispatchOrder gen1 e1 intent mid).2) =
      resultEcon (EventResult.orderResult (dispatchOrder gen2 e2 intent mid).2) := by
  unfold dispatchOrder
  by_cases hty : intent.order_type = OrderType.MARKET
  · rw [if_pos hty, if_pos hty]
    exact engineExecuteMarket_rel hR intent mid
  · rw [if_neg hty, if_neg hty]
    exact engineHandleLimit_rel gen1 gen2 hR hfresh1 hfresh2 intent mid

theorem on_order_rel (gen1 gen2 : ℕ → String) {e1 e2 : Engine}
    (hR : EngRel e1 e2)
    (hfresh1 : gen1 e1.nextId ∉ keysA e1.state.open_orders)
    (hfresh2 : gen2 e2.nextId ∉ keysA e2.state.open_orders)
    (intent : OrderIntent) :
    EngRel (on_order gen1 e1 intent).1 (on_order gen2 e2 intent).1 ∧
    resultEcon (EventResult.orderResult (on_order gen1 e1 intent).2) =
      resultEcon (EventResult.orderResult (on_order gen2 e2 intent).2) := by
  have hR0 := hR
  obtain ⟨hb, hp, hpr, hn, hbk⟩ := hR
  unfold on_order
  rw [← hpr, ← hp]
  cases hmid : lookupA e1.prices intent.symbol with
  | none => exact ⟨hR0, rfl⟩
  | some mid =>
    cases hpos : lookupA e1.state.positions intent.symbol with
    | some pos =>
      dsimp only
      by_cases hpre : pos.side = intent.side ∧ intent.leverage ≠ pos.leverage
      · rw [if_pos hpre, if_pos hpre]
        exact ⟨hR0, rfl⟩
      · rw [if_neg hpre, if_neg hpre]
        exact dispatchOrder_rel gen1 gen2 hR0 hfresh1 hfresh2 intent mid
    | none => exact dispatchOrder_rel gen1 gen2 hR0 hfresh1 hfresh2 intent mid

/-- `on_order` either leaves the open-order book alone (bumping the id
counter by at most one) or rests exactly one order under the freshly
generated id. -/
theorem on_order_book_shape (gen : ℕ → String) (e : Engine) (intent : OrderIntent) :
    ((on_order gen e intent).1.state.open_orders = e.state.open_orders ∧
      ((on_order gen e intent).1.nextId = e.nextId ∨
        (on_order gen e intent).1.nextId = e.nextId + 1)) ∨
    (∃ o : OpenOrder,
      (on_order gen e intent).1.state.open_orders
          = insertA e.state.open_orders (gen e.nextId) o ∧
      (on_order gen e intent).1.nextId = e.nextId + 1) := by
  simp only [on_order, dispatchOrder, engineExecuteMarket, engineHandleLimit]
  repeat' split
  all_goals first
    | exact Or.inl ⟨rfl, Or.inl rfl⟩
    | exact Or.inl ⟨rfl, Or.inr rfl⟩
    | exact Or.inr ⟨_, rfl, rfl⟩

/-- A sub-book with at least as large a counter stays well formed. -/
theorem goodBook_of_sublist {gen : ℕ → String} {e e2 : Engine} (hJ : GoodBook gen e)
    (hbook : List.Sublist e2.state.open_orders e.state.open_orders)
    (hnid : e.nextId ≤ e2.nextId) : GoodBook gen e2 := by
  obtain ⟨hnd, hfr⟩ := hJ
  constructor
  · exact List.Nodup.sublist (hbook.map Prod.fst) hnd
  · intro n hle hmem
    exact hfr n (le_trans hnid hle) ((hbook.map Prod.fst).subset hmem)

theorem stepEvent_good (gen : ℕ → String) (hg : Function.Injective gen) (e : Engine)
    (hJ : GoodBook gen e) (ev : Event) : GoodBook gen (stepEvent gen e ev).1 := by
  obtain ⟨hnd, hfr⟩ := hJ
  cases ev with
  | price sym v =>
    have hbook : List.Sublist (on_price_update e sym v).state.open_orders
        e.state.open_orders := by
      rw [on_price_update_eq e sym v hnd]
      split
      · exact List.filter_sublist _
      · exact List.filter_sublist _
    have hnid : (on_price_update e sym v).nextId = e.nextId := by
      rw [on_price_update_eq e sym v hnd]
      split <;> rfl
    exact goodBook_of_sublist ⟨hnd, hfr⟩ hbook (le_of_eq hnid.symm)
  | order intent =>
    have hstep : (stepEvent gen e (Event.order intent)).1 = (on_order gen e intent).1 := rfl
    rw [hstep]
    rcases on_order_book_shape gen e intent with ⟨hbook, hnid⟩ | ⟨o, hbook, hnid⟩
    · refine goodBook_of_sublist ⟨hnd, hfr⟩ ?_ ?_
      · show List.Sublist (on_order gen e intent).1.state.open_orders e.state.open_orders
        rw [hbook]
      · show e.nextId ≤ (on_order gen e intent).1.nextId
        rcases hnid with h | h <;> omega
    · have hins := insertA_of_not_mem_keys o (hfr e.nextId le_rfl)
      have hkeys : keysA ((on_order gen e intent).1.state.open_orders)
          = keysA e.state.open_orders ++ [gen e.nextId] := by
        rw [hbook, hins]
        simp [keysA]
      constructor
      · rw [NodupKeys, hkeys]
        rw [List.nodup_append]
        exact ⟨hnd, List.nodup_singleton _,
          fun a ha hb => by
            rw [List.mem_singleton] at hb
            subst hb
            exact hfr e.nextId le_rfl ha⟩
      · intro n hle hmem
        rw [hkeys] at hmem
        rw [hnid] at hle
        rcases List.mem_append.mp hmem with hm | hm
        · exact hfr n (by omega) hm
        · rw [List.mem_singleton] at hm
          have := hg hm
          omega
  | cancel oid =>
    have hbook : List.Sublist (on_cancel e oid).1.state.open_orders
        e.state.open_orders := by
      unfold on_cancel
      split
      · exact List.Sublist.refl _
      · exact eraseA_sublist _ _
    have hnid : (on_cancel e oid).1.nextId = e.nextId := by
      unfold on_cancel
      split <;> rfl
    exact goodBook_of_sublist ⟨hnd, hfr⟩ hbook (le_of_eq hnid.symm)

theorem stepEvent_rel (gen1 gen2 : ℕ → String) {e1 e2 : Engine} (hR : EngRel e1 e2)
    (hJ1 : GoodBook gen1 e1) (hJ2 : GoodBook gen2 e2) (ev : Event)
    (hev : isCancel ev = false) :
    EngRel (stepEvent gen1 e1 ev).1 (stepEvent gen2 e2 ev).1 ∧
      resultEcon (stepEvent gen1 e1 ev).2 = resultEcon (stepEvent gen2 e2 ev).2 := by
  cases ev with
  | price sym v => exact ⟨on_price_update_rel hR hJ1.1 hJ2.1 sym v, rfl⟩
  | order intent =>
    exact on_order_rel gen1 gen2 hR (hJ1.2 e1.nextId le_rfl)
      (hJ2.2 e2.nextId le_rfl) intent
  | cancel oid => simp [isCancel] at hev

/-! ## Claim C4 -/

/-- C4 (amended): the engine is deterministic modulo the freshly drawn
order ids.  For two runs over the same cancel-free event sequence from
strip-related starting states, with any two injective id supplies whose
future ids are fresh for the starting books, the resulting balances,
positions, prices and id counters are identical, the open-order books
are identical once generated ids are erased, and the result records of
every event are identical once generated ids are erased (a run is
byte-identical, including ids, only when the id supply is the same —
`uuid.uuid4()` makes the ids themselves irreproducible). -/
theorem engine_deterministic_modulo_order_ids (gen1 gen2 : ℕ → String)
    (hg1 : Function.Injective gen1) (hg2 : Function.Injective gen2)
    (evs : List Event) (e1 e2 : Engine) (hR : EngRel e1 e2)
    (hJ1 : GoodBook gen1 e1) (hJ2 : GoodBook gen2 e2) (hnc : noCancel evs) :
    EngRel (runEvents gen1 e1 evs).1 (runEvents gen2 e2 evs).1 ∧
      (runEvents gen1 e1 evs).2.map resultEcon
        = (runEvents gen2 e2 evs).2.map resultEcon := by
  induction evs generalizing e1 e2 with
  | nil => exact ⟨hR, rfl⟩
  | cons ev rest ih =>
    have hev : isCancel ev = false := hnc ev (List.mem_cons_self ev rest)
    obtain ⟨hstep, hres⟩ := stepEvent_rel gen1 gen2 hR hJ1 hJ2 ev hev
    obtain ⟨hrel, hress⟩ := ih (stepEvent gen1 e1 ev).1 (stepEvent gen2 e2 ev).1 hstep
      (stepEvent_good gen1 hg1 e1 hJ1 ev) (stepEvent_good gen2 hg2 e2 hJ2 ev)
      (fun x hx => hnc x (List.mem_cons_of_mem _ hx))
    exact ⟨hrel, by simp only [runEvents, List.map_cons]; rw [hres, hress]⟩

theorem limit_ne_market : OrderType.LIMIT ≠ OrderType.MARKET := by decide

theorem buy_ne_sell : Side.BUY ≠ Side.SELL := by decide

theorem base_ne_usd : SizeUnit.BASE ≠ SizeUnit.USD := by decide

def genA : ℕ → String := fun _ => "a"

def genB : ℕ → String := fun _ => "b"

def limitIntentRest : OrderIntent :=
  { symbol := "BTC", side := Side.BUY, order_type := OrderType.LIMIT,
    size_value := 1 / 10, size_unit := SizeUnit.BASE, leverage := 10,
    limit_price := 48000, reduce_only := false, client_id := "c9",
    timestamp := 1000 }

def c4Events : List Event :=
  [Event.price "BTC" 50000, Event.order limitIntentRest]

/-- Counterexample for C4 as stated: the same cancel-free event
sequence (a price tick, then a resting limit buy) run twice from the
same starting state with two different draws of the fresh order id
yields different account states — the resting order's id differs. -/
theorem two_runs_not_identical_counterexample :
    ¬ ((runEvents genA initialEngine c4Events).1.state
        = (runEvents genB initialEngine c4Events).1.state) := by
  intro h
  have hkeys := congrArg (fun st => keysA st.open_orders) h
  norm_num [runEvents, stepEvent, on_price_update, check_limit_fills, clfScan,
    on_order, dispatchOrder, engineHandleLimit, check_limit_fill, calc_spread,
    convert_size, insertA, lookupA, keysA, initialEngine, c4Events,
    limitIntentRest, genA, genB, TICK_SIZE, calc_fee, TAKER_FEE_RATE,
    limit_ne_market, buy_ne_sell, base_ne_usd] at hkeys
  exact absurd hkeys (by decide)

def genRepA : ℕ → String := fun n => String.mk (List.replicate n 'a')

def genRepB : ℕ → String := fun n => String.mk (List.replicate n 'b')

theorem genRep_injective (c : Char) :
    Function.Injective (fun n => String.mk (List.replicate n c)) := by
  intro m n h
  have h2 : List.replicate m c = List.replicate n c := congrArg String.data h
  have h3 := congrArg List.length h2
  simpa using h3

/-- Witness for C4 (amended) at the concrete two-run counterexample
scenario, with two distinct injective id supplies. -/
theorem engine_deterministic_modulo_order_ids_witness :
    (noCancel c4Events ∧ GoodBook genRepA initialEngine ∧
      GoodBook genRepB initialEngine) ∧
    (EngRel (runEvents genRepA initialEngine c4Events).1
        (runEvents genRepB initialEngine c4Events).1 ∧
      (runEvents genRepA initialEngine c4Events).2.map resultEcon
        = (runEvents genRepB initialEngine c4Events).2.map resultEcon) :=
  ⟨⟨by decide, ⟨by decide, fun n _ => by simp [initialEngine, keysA]⟩,
    ⟨by decide, fun n _ => by simp [initialEngine, keysA]⟩⟩,
   engine_deterministic_modulo_order_ids genRepA genRepB
     (genRep_injective 'a') (genRep_injective 'b') c4Events
     initialEngine initialEngine (EngRel.refl initialEngine)
     ⟨by decide, fun n _ => by simp [initialEngine, keysA]⟩
     ⟨by decide, fun n _ => by simp [initialEngine, keysA]⟩
     (by decide)⟩

end HlPaper
